import Mathlib

/-!
Shallow embedding of the yapl chain/output execution engine
(repository patrickjm/yapl, package yapl-js).

Each definition is translated from the TypeScript source named in its doc
comment.  External collaborators (the Liquid templating engine, the JS
builtin JSON.parse, the jsonschema validator, providers, tools, the cache)
are modelled as explicit function parameters, following the spec's scope
boundary.  JavaScript promises are collapsed to sequential evaluation;
thrown JS exceptions become an explicit error type; JS `null`/`undefined`
collapse to `Option.none` (they are only ever distinguished by truthiness
in the modelled code, which treats them identically); unbounded loops
(the tool-call loop, the scheduler's while loop) take a fuel parameter.
Runs of the model additionally report instrumentation (provider call
counts, executed-chain traces, logged warnings) that the source emits as
side effects, so that theorems can speak about "the provider is not
invoked" and "a warning is logged".
-/

namespace Yapl

/-- JSON values (JS `any` payloads: tool arguments, parsed output values).
Numbers are modelled as integers; no claim depends on numeric fidelity. -/
inductive Json where
  | null : Json
  | bool (b : Bool) : Json
  | num (n : Int) : Json
  | str (s : String) : Json
  | arr (elems : List Json) : Json
  | obj (fields : List (String × Json)) : Json

mutual

/-- `JSON.stringify` on a JSON value (used by the cache key hashing). -/
def jsonToString : Json → String
  | .null => "null"
  | .bool b => if b then "true" else "false"
  | .num n => toString n
  | .str s => "\x22" ++ s ++ "\x22"
  | .arr xs => "[" ++ jsonArrToString xs ++ "]"
  | .obj fs => "\x7b" ++ jsonObjToString fs ++ "\x7d"

def jsonArrToString : List Json → String
  | [] => ""
  | [x] => jsonToString x
  | x :: y :: xs => jsonToString x ++ "," ++ jsonArrToString (y :: xs)

def jsonObjToString : List (String × Json) → String
  | [] => ""
  | [(k, v)] => "\x22" ++ k ++ "\x22:" ++ jsonToString v
  | (k, v) :: f :: fs =>
      "\x22" ++ k ++ "\x22:" ++ jsonToString v ++ "," ++ jsonObjToString (f :: fs)

end

/-- From src/public-types.ts `ToolCall` (`{id, function: {name, arguments}}`),
with the inner `function` object flattened. -/
structure ToolCall where
  id : String
  name : String
  arguments : String
deriving DecidableEq, Repr

/-- From src/public-types.ts `Message`.  The `role` discriminants
("user" | "system" | "assistant" | "tool") are kept as strings, as the
engine compares them with string equality. -/
structure Message where
  role : String
  content : String
  toolCalls : Option (List ToolCall) := none
  toolCallId : Option String := none
deriving DecidableEq, Repr

/-- From src/public-types.ts `Model` (`{name, params?}`). -/
structure Model where
  name : String
  params : Option Json := none

/-- The schema's `format.json` field: `boolean | string`. -/
inductive JsonFlag where
  | boolVal (b : Bool) : JsonFlag
  | strVal (s : String) : JsonFlag
deriving DecidableEq, Repr

/-- From src/public-types.ts `OutputFormat` (`{json?: boolean | string}`). -/
structure OutputFormat where
  json : Option JsonFlag := none
deriving DecidableEq, Repr

/-- From src/public-types.ts `Cost`.  JS numbers modelled as integers;
the claims only need additivity and zero. -/
structure Cost where
  usd : Int
  tokens : Int
  ms : Int
deriving DecidableEq, Repr

/-- From src/yapl-js/src/utils.ts `addCost`. -/
def addCost (a b : Cost) : Cost :=
  { usd := a.usd + b.usd, tokens := a.tokens + b.tokens, ms := a.ms + b.ms }

def zeroCost : Cost := { usd := 0, tokens := 0, ms := 0 }

/-- JS exceptions thrown by the engine, by site.  The source throws
`Error` objects with formatted message strings; here each throw site gets
a structured constructor carrying the data interpolated into the message. -/
inductive YaplError where
  | noModelConfigured : YaplError
  | noProviderConfigured : YaplError
  | providerNotFound (name : String) : YaplError
  | toolNotFound (name : String) : YaplError
  | unknownToolCalled (name : String) : YaplError
  | circularDependency (chain : String) : YaplError
  | undeclaredDependency (missing : String) (dependent : Option String) : YaplError
  | duplicateOutput (chain : String) (id : String) : YaplError
  | misplacedDefaultOutput (chain : String) : YaplError
  | reservedInput (name : String) : YaplError
  | providerError (msg : String) : YaplError
  | typeError (site : String) : YaplError
  | fuelExhausted : YaplError
deriving DecidableEq, Repr

/-- Modelled from the spec: the reserved default output identifier
(src constants.ts is not in the provided sources; the tests access it as
the literal record key `default`). -/
def DEFAULT_OUTPUT_ID : String := "default"

/-- Modelled from the spec: the reserved default chain identifier
(src constants.ts is not in the provided sources; the tests access it as
the literal record key `default`). -/
def DEFAULT_CHAIN_ID : String := "default"

/-! ### Record helpers: JS object records as insertion-ordered assoc lists -/

def lookupRecord {α : Type} (r : List (String × α)) (k : String) : Option α :=
  (r.find? (fun e => e.1 = k)).map (fun e => e.2)

/-- `r[k] = v` on a JS record: overwrite an existing key in place,
otherwise append. -/
def recordSet {α : Type} (r : List (String × α)) (k : String) (v : α) :
    List (String × α) :=
  if (r.find? (fun e => e.1 = k)).isSome then
    r.map (fun e => if e.1 = k then (k, v) else e)
  else r ++ [(k, v)]

/-- `Array.from(new Set(xs))`: deduplicate, keeping first occurrences. -/
def dedupFirst (xs : List String) : List String :=
  xs.foldl (fun acc x => if x ∈ acc then acc else acc ++ [x]) []

/-- JS truthiness of a `string | null | undefined` value
(`null`, `undefined` and the empty string are falsy). -/
def strTruthy : Option String → Bool
  | none => false
  | some s => decide (s ≠ "")

/-- JS `a || b` on `string | null | undefined` values. -/
def strOr (a b : Option String) : Option String :=
  if strTruthy a then a else b

/-! ### Schema document types (from src/unnamed/part_005, the zod schema) -/

/-- The schema's `model` union: a bare string name or a `{name, params}` object. -/
inductive SchemaModel where
  | str (s : String) : SchemaModel
  | obj (m : Model) : SchemaModel

/-- From src/yapl-js/src/utils.ts `toModel`: normalizes `string | Model |
undefined`.  A falsy value (undefined, null, empty string) yields
undefined; a bare string becomes `{name}`; an object passes through
(even with an empty name). -/
def toModel : Option SchemaModel → Option Model
  | none => none
  | some (.str s) => if s = "" then none else some { name := s }
  | some (.obj m) => some m

/-- One element of the schema's `messages` array (the zod union of raw
message shorthands). -/
inductive RawMessage where
  | roleContent (role : String) (content : String) : RawMessage
  | user (content : String) : RawMessage
  | assistant (content : String) : RawMessage
  | system (content : String) : RawMessage
  | outputBare : RawMessage
  | output (id : Option String) (tools : Option (List String))
      (model : Option SchemaModel) (provider : Option String)
      (format : Option OutputFormat) : RawMessage
  | clearBare : RawMessage
  | clear (system : Option Bool) : RawMessage

/-- The schema's `chain` object.  The schema also declares an `outputs`
record on the common fields, which the engine never reads; it is omitted. -/
structure Chain where
  provider : Option String := none
  model : Option SchemaModel := none
  inputs : Option (List String) := none
  tools : Option (List String) := none
  messages : List RawMessage

/-- A named chain entry of a multi-chain document (`{dependsOn?, chain}`). -/
structure ChainDef where
  dependsOn : Option (List String) := none
  chain : Chain

/-- The top-level schema union: a single chain document, or common fields
plus a record of named chain definitions. -/
inductive Schema where
  | single (chain : Chain) : Schema
  | multi (provider : Option String) (model : Option SchemaModel)
      (inputs : Option (List String)) (tools : Option (List String))
      (chains : List (String × ChainDef)) : Schema

/-! ### Instructions (src/yapl-js/src/types.ts) and the tape builder -/

/-- From src/yapl-js/src/types.ts: the tagged `Instruction` union. -/
inductive Instruction where
  | push (message : Message) : Instruction
  | output (id : Option String) (model : Option Model)
      (provider : Option String) (tools : Option (List String))
      (format : Option OutputFormat) : Instruction
  | clear (system : Option Bool) : Instruction

def isOutputInstr : Instruction → Bool
  | .output _ _ _ _ _ => true
  | _ => false

/-- Strips exactly one trailing newline from a raw message content
(src/yapl-js/src/utils.ts `messagesToInstructions`, the
`content.endsWith/slice` step). -/
def stripNl (c : String) : String :=
  if c.endsWith "\n" then c.dropRight 1 else c

/-- The per-element mapping inside `messagesToInstructions`.  The source's
final `else throw` branch (an object matching no shorthand) is unreachable
for schema-validated input and has no counterpart in `RawMessage`. -/
def mapRaw : RawMessage → Instruction
  | .outputBare => .output none none none none none
  | .output id tools mdl provider format =>
      .output id (toModel mdl) provider tools format
  | .clearBare => .clear none
  | .clear s => .clear s
  | .roleContent r c => .push { role := r, content := stripNl c }
  | .user c => .push { role := "user", content := stripNl c }
  | .assistant c => .push { role := "assistant", content := stripNl c }
  | .system c => .push { role := "system", content := stripNl c }

/-- The final-id step of `messagesToInstructions`: if the last
instruction's `id` is falsy (undefined or empty), assign the reserved
default output id. -/
def assignDefaultId : Instruction → Instruction
  | .output id m p t f =>
      if strTruthy id then .output id m p t f
      else .output (some DEFAULT_OUTPUT_ID) m p t f
  | i => i

def updateLast (f : Instruction → Instruction) (l : List Instruction) :
    List Instruction :=
  l.dropLast ++ (l.getLast?.map f).toList

/-- From src/yapl-js/src/utils.ts `messagesToInstructions`.  On an empty
message list the source reads `mapped[-1].type`, a JS TypeError. -/
def messagesToInstructions (messages : List RawMessage) :
    Except YaplError (List Instruction) :=
  let mapped := messages.map mapRaw
  match mapped.getLast? with
  | none => .error (.typeError "reading type of mapped[-1]")
  | some last =>
      let mapped' :=
        if isOutputInstr last then mapped
        else mapped ++ [.output none none none none none]
      .ok (updateLast assignDefaultId mapped')

/-! ### Templating context (renderInstruction, processInputs) -/

/-- Caller-supplied inputs: a JS record of arbitrary JSON values. -/
abbrev Inputs : Type := List (String × Json)

/-- The shape of `outputs[id]` exposed to templating:
`{...trailingMessage, value}` (src/unnamed/part_000 `executeChain`). -/
structure ContextOutput where
  msg : Message
  value : Option Json := none

/-- The value of a chain entry in the builtins context: the chain's
result `{messages, outputs}` as stored by the scheduler. -/
structure ChainResult where
  messages : List Message
  outputs : List (String × ContextOutput)

/-- From src/public-types.ts `BuiltinInputs`: the mutable builtin
templating context `{outputs, chains}`. -/
structure BuiltinInputs where
  chains : List (String × ChainResult) := []
  outputs : List (String × ContextOutput) := []

/-- A value visible in the Liquid templating context: a caller input or
one of the two builtin entries. -/
inductive CtxVal where
  | json (v : Json) : CtxVal
  | outs (o : List (String × ContextOutput)) : CtxVal
  | chainsVal (c : List (String × ChainResult)) : CtxVal

/-- The spread `{...inputs, ...builtins}` from
src/yapl-js/src/utils.ts `renderInstruction`: the builtins' two keys
(`chains`, `outputs`) override caller inputs, all other keys come from
the caller inputs. -/
def mkContext (inputs : Inputs) (builtins : BuiltinInputs) :
    String → Option CtxVal :=
  fun k =>
    if k = "chains" then some (.chainsVal builtins.chains)
    else if k = "outputs" then some (.outs builtins.outputs)
    else (lookupRecord inputs k).map .json

/-- The Liquid `parseAndRender` contract: a template and a context map
produce a string.  External collaborator, taken as a parameter. -/
def RenderFn : Type := String → (String → Option CtxVal) → String

/-- From src/yapl-js/src/utils.ts `renderInstruction`: renders a push
message's content, and an output's `format.json` when it is a string. -/
def renderInstruction (render : RenderFn) (inst : Instruction)
    (inputs : Inputs) (builtins : BuiltinInputs) : Instruction :=
  let context := mkContext inputs builtins
  match inst with
  | .output id m p t f =>
      match f with
      | some fmt =>
          match fmt.json with
          | some (.strVal s) =>
              .output id m p t (some { json := some (.strVal (render s context)) })
          | _ => .output id m p t f
      | none => .output id m p t none
  | .push msg => .push { msg with content := render msg.content context }
  | .clear s => .clear s

/-- From src/yapl-js/src/utils.ts `processInputs`: builds a zod object of
`z.any()` fields from the declared input names and parses the caller
inputs with it.  That parse accepts any record (unknown keys are
tolerated, `z.any()` accepts missing keys), its result is discarded, and
a shallow copy of the inputs is returned — so the function never rejects
and acts as the identity on the record. -/
def processInputs (inputs : Inputs) (_schema : Option (List String)) :
    Except YaplError Inputs :=
  .ok inputs

/-! ### Configuration resolution (src/yapl-js/src/utils.ts resolveConfig) -/

/-- From src/yapl-js/src/execute-output.ts `ExecuteOutputOptions.output`:
the per-call `{provider, model, tools, format}` with `Maybe` fields. -/
structure OutputSpec where
  provider : Option String := none
  model : Option Model := none
  tools : Option (List String) := none
  format : Option OutputFormat := none

/-- The engine-level defaults from the `Yapl` constructor options. -/
structure YaplDefaults where
  provider : Option String := none
  model : Option Model := none
  tools : Option (List String) := none

/-- From src/public-types.ts `Provider`: name plus the `execute`
contract.  Provider transport errors surface as `Except.error`. -/
structure Provider where
  name : String
  execute : Model → List Message → Option OutputFormat →
      Except String (List Message × Cost)

/-- From src/public-types.ts `Tool` (`{type: "function", function:
{name, description, arguments, execute}}`), with the inner object
flattened; `type` is the constant "function".  The executor receives the
JS value the engine passes it (`none` models `undefined`) and a thrown
error surfaces as `Except.error`. -/
structure Tool where
  name : String
  description : String
  arguments : Json
  execute : Option Json → Except String String

structure ResolvedConfig where
  model : Model
  provider : Provider
  tools : List Tool

/-- From src/yapl-js/src/utils.ts `resolveConfig`, the
`let _model = reply.model; if (!_model || !_model?.name) _model =
defaults?.model` step. -/
def selectModel (replyModel : Option Model) (defaults : Option YaplDefaults) :
    Option Model :=
  match replyModel with
  | none => defaults.bind (fun d => d.model)
  | some m => if m.name = "" then defaults.bind (fun d => d.model) else some m

/-- From `resolveConfig`: `reply.provider || defaults?.provider`. -/
def selectProviderName (replyProvider : Option String)
    (defaults : Option YaplDefaults) : Option String :=
  strOr replyProvider (defaults.bind (fun d => d.provider))

/-- From `resolveConfig`:
`Array.from(new Set(reply.tools || defaults?.tools || []))`.
Note that any array (including the empty array) is truthy in JS, so an
output-level empty list short-circuits the fallback. -/
def selectToolNames (replyTools : Option (List String))
    (defaults : Option YaplDefaults) : List String :=
  dedupFirst (match replyTools with
    | some ts => ts
    | none =>
        match defaults.bind (fun d => d.tools) with
        | some ts => ts
        | none => [])

/-- From src/yapl-js/src/utils.ts `resolveConfig`. -/
def resolveConfig (reply : OutputSpec) (defaults : Option YaplDefaults)
    (providers : List Provider) (toolReg : List Tool) :
    Except YaplError ResolvedConfig := do
  let _model := selectModel reply.model defaults
  match _model with
  | none => .error .noModelConfigured
  | some model =>
    let _providerName := selectProviderName reply.provider defaults
    if strTruthy _providerName then
      match _providerName with
      | some pname =>
          match providers.find? (fun p => p.name = pname) with
          | none => .error (.providerNotFound pname)
          | some provider => do
              let tools ← (selectToolNames reply.tools defaults).mapM
                (fun nm =>
                  match toolReg.find? (fun t => t.name = nm) with
                  | some t => .ok t
                  | none => .error (.toolNotFound nm))
              .ok { model := model, provider := provider, tools := tools }
      | none => .error .noProviderConfigured
    else .error .noProviderConfigured

/-! ### Cache (src/yapl-js/src/cache.ts) -/

/-- The content-addressed cache key data
(`HashKey = CacheValueMetadata & {messages}`). -/
structure HashKey where
  provider : String
  model : Model
  tools : List Tool
  format : Option OutputFormat
  messages : List Message

def encodeStrList (xs : List String) : String :=
  "[" ++ String.intercalate "," xs ++ "]"

def encodeModel (m : Model) : String :=
  match m.params with
  | none => "[\x22" ++ m.name ++ "\x22]"
  | some p => "[\x22" ++ m.name ++ "\x22," ++ jsonToString p ++ "]"

def encodeFormat : Option OutputFormat → String
  | none => "undefined"
  | some f =>
      match f.json with
      | none => "\x7b\x7d"
      | some (.boolVal b) => if b then "\x7bjson:true\x7d" else "\x7bjson:false\x7d"
      | some (.strVal s) => "\x7bjson:\x22" ++ s ++ "\x22\x7d"

/-- From src/yapl-js/src/cache.ts `serializeKey`'s inner
`serializeMessage`: `[role, content]`, extended with the tool calls'
names and argument payloads when present and truthy. -/
def serializeMessage (m : Message) : String :=
  match m.toolCalls with
  | none => encodeStrList [m.role, m.content]
  | some calls =>
      encodeStrList [m.role, m.content,
        encodeStrList (calls.map (fun c => encodeStrList [c.name, c.arguments]))]

/-- From src/yapl-js/src/cache.ts `serializeKey`: the nested array
`[provider, model, format, tools fields, messages]`, here rendered
directly to its string form.  Each tool contributes
`[tool.type, name, description, arguments]` with `type = "function"`. -/
def serializeKey (key : HashKey) : String :=
  encodeStrList
    [key.provider, encodeModel key.model, encodeFormat key.format,
     encodeStrList (key.tools.map (fun t =>
       encodeStrList ["function", t.name, t.description, jsonToString t.arguments])),
     encodeStrList (key.messages.map serializeMessage)]

/-- From src/yapl-js/src/cache.ts `hashKey`: the md5 digest of the
JSON-stringified serialized key.  The digest step is modelled as the
identity on the serialized string (a collision-free abstraction of md5). -/
def hashKey (key : HashKey) : String := serializeKey key

/-- The cache contract (`get(key)` / `set(key, value, metadata)`): an
insertion-ordered store of trailing-message slices under string keys. -/
abbrev Cache : Type := List (String × List Message)

def cacheGet (c : Cache) (k : String) : Option (List Message) :=
  (c.find? (fun e => e.1 = k)).map (fun e => e.2)

def cacheSet (c : Cache) (k : String) (v : List Message) : Cache :=
  if (c.find? (fun e => e.1 = k)).isSome then
    c.map (fun e => if e.1 = k then (k, v) else e)
  else c ++ [(k, v)]

/-! ### External collaborators -/

/-- The external functions the engine calls but does not implement:
Liquid rendering, the JS builtin `JSON.parse` (`none` models a thrown
SyntaxError), and the jsonschema `Validator().validate` validity verdict. -/
structure Externals where
  render : RenderFn
  jsonParse : String → Option Json
  schemaValidate : Json → Json → Bool

/-! ### Output executor and tool-call loop (src/yapl-js/src/execute-output.ts) -/

/-- From src/yapl-js/src/execute-output.ts `ExecuteOutputOptions`
(minus the logger and the ambient services carried by `Externals`). -/
structure ExecuteOutputArgs where
  messages : List Message
  output : OutputSpec
  cache : Option Cache
  providers : List Provider
  tools : List Tool
  defaults : Option YaplDefaults

/-- The result of one `executeOutput` call: the full message list and the
incremental cost (the source's return value), plus the cache state and
the number of provider invocations (side effects of the source,
instrumented so theorems can refer to them). -/
structure OutputResult where
  messages : List Message
  cost : Cost
  cache : Option Cache
  providerCalls : Nat

/-- The per-round tool-call processing loop from `executeOutput`
(the `for (const call of toolCalls)` body).  Faithful to the source's
two defects: the jsonschema validation verdict is computed and discarded,
and the parsed arguments are bound to a shadowing `const args`, so the
executor is always invoked with the outer (undefined) `args`. -/
def processToolCalls (ext : Externals) (tools : List Tool)
    (calls : List ToolCall) (msgs : List Message) :
    Except YaplError (List Message) :=
  match calls with
  | [] => .ok msgs
  | call :: rest =>
    match tools.find? (fun t => t.name = call.name) with
    | none => .error (.unknownToolCalled call.name)
    | some tool =>
      match ext.jsonParse call.arguments with
      | none =>
          -- JSON.parse threw: append a tool-role error message, continue
          processToolCalls ext tools rest (msgs ++
            [{ role := "tool",
               content := "Error: Tool call " ++ call.name ++
                 " arguments failed to parse",
               toolCallId := some call.id }])
      | some parsedArgs =>
          -- `const args = JSON.parse(...)`: shadows the outer `args`;
          -- `validator.validate(args, schema)` returns a result object
          -- that the source never inspects.
          let _validation := ext.schemaValidate parsedArgs tool.arguments
          -- the outer `args` is still undefined here
          match tool.execute none with
          | .ok result =>
              processToolCalls ext tools rest (msgs ++
                [{ role := "tool", content := result,
                   toolCallId := some call.id }])
          | .error e =>
              processToolCalls ext tools rest (msgs ++
                [{ role := "tool",
                   content := "Error: Tool call " ++ call.name ++
                     " failed: " ++ e,
                   toolCallId := some call.id }])

/-- The `do/while` provider loop of `executeOutput`, fueled (the source
imposes no bound on tool-call rounds).  Returns the accumulated messages
and cost and the number of provider invocations. -/
def toolLoop (ext : Externals) (config : ResolvedConfig)
    (format : Option OutputFormat) :
    Nat → List Message → Cost → Nat →
    Except YaplError (List Message × Cost × Nat)
  | 0, _, _, _ => .error .fuelExhausted
  | fuel + 1, allMessages, cost, calls => do
    match config.provider.execute config.model allMessages format with
    | .error e => .error (.providerError e)
    | .ok (newMessages, c) =>
      let cost := addCost cost c
      let allMessages := allMessages ++ newMessages
      let calls := calls + 1
      match newMessages.getLast? with
      | none =>
          -- `lastMessage` is undefined; `'toolCalls' in lastMessage` throws
          .error (.typeError "toolCalls in undefined")
      | some lastMessage =>
        match lastMessage.toolCalls with
        | none => .ok (allMessages, cost, calls)
        | some toolCalls => do
          let allMessages ← processToolCalls ext config.tools toolCalls allMessages
          if toolCalls.length > 0 then
            toolLoop ext config format fuel allMessages cost calls
          else .ok (allMessages, cost, calls)

/-- From src/yapl-js/src/execute-output.ts `executeOutput`: resolve the
configuration, query the cache under the content-addressed key, on a hit
return the cached trailing messages appended to the history with zero
cost, otherwise run the tool-call loop and store the newly appended
slice under the same key. -/
def executeOutput (ext : Externals) (fuel : Nat) (args : ExecuteOutputArgs) :
    Except YaplError OutputResult := do
  let config ← resolveConfig args.output args.defaults args.providers args.tools
  let key := hashKey
    { provider := config.provider.name, model := config.model,
      tools := config.tools, format := args.output.format,
      messages := args.messages }
  let cached := args.cache.bind (fun c => cacheGet c key)
  match cached with
  | some l =>
      if l.length ≠ 0 then
        -- cache hit: no provider call, no tool loop, zero cost
        .ok { messages := args.messages ++ l, cost := zeroCost,
              cache := args.cache, providerCalls := 0 }
      else do
        let (allMessages, cost, calls) ←
          toolLoop ext config args.output.format fuel args.messages zeroCost 0
        let newCache := args.cache.map (fun c =>
          cacheSet c key (allMessages.drop args.messages.length))
        .ok { messages := allMessages, cost := cost, cache := newCache,
              providerCalls := calls }
  | none => do
      let (allMessages, cost, calls) ←
        toolLoop ext config args.output.format fuel args.messages zeroCost 0
      let newCache := args.cache.map (fun c =>
        cacheSet c key (allMessages.drop args.messages.length))
      .ok { messages := allMessages, cost := cost, cache := newCache,
            providerCalls := calls }

/-! ### Chain executor (src/unnamed/part_000 executeChain) -/

/-- From src/unnamed/part_000 `ExecuteChainOptions` (minus ambient
services carried separately). -/
structure ExecuteChainOptions where
  chain : Chain
  inputs : Inputs
  builtins : BuiltinInputs
  id : String
  cache : Option Cache
  providers : List Provider
  tools : List Tool
  defaults : Option YaplDefaults

/-- The mutable state of the chain executor's tape walk, plus
instrumentation (warnings logged on JSON-parse failure, cache state,
provider call count, accumulated cost). -/
structure TapeState where
  msgs : List Message
  outputs : List (String × ContextOutput)
  warnings : List String
  cost : Cost
  cache : Option Cache
  providerCalls : Nat

/-- `toModel(output.model ?? chain.model)` from `executeChain`:
the instruction's model (already normalized) if non-nullish, else the
chain's raw schema model normalized. -/
def chainCallModel (outModel : Option Model) (chainModel : Option SchemaModel) :
    Option Model :=
  match outModel with
  | some m => some m
  | none => toModel chainModel

/-- The tape walk of src/unnamed/part_000 `executeChain`: render each
instruction just in time, push messages, run outputs through
`executeOutput`, record named outputs (JSON-parsing the trailing content
when the format requests JSON; parse failure logs a warning and leaves
the value unset), and truncate history on `clear`. -/
def runTape (ext : Externals) (fuel : Nat) (opts : ExecuteChainOptions) :
    List Instruction → TapeState → Except YaplError TapeState
  | [], st => .ok st
  | instrRaw :: rest, st =>
    let instr := renderInstruction ext.render instrRaw opts.inputs opts.builtins
    match instr with
    | .push m => runTape ext fuel opts rest { st with msgs := st.msgs ++ [m] }
    | .clear sys =>
        if sys = some true ∨ ¬ (st.msgs.head?.map (fun m => m.role) = some "system") then
          runTape ext fuel opts rest { st with msgs := [] }
        else
          runTape ext fuel opts rest { st with msgs := st.msgs.take 1 }
    | .output id mdl prov tls fmt => do
        let toolNames := (opts.chain.tools.getD []) ++ (tls.getD [])
        let res ← executeOutput ext fuel
          { messages := st.msgs,
            output :=
              { model := chainCallModel mdl opts.chain.model,
                provider := prov <|> opts.chain.provider,
                tools := some toolNames,
                format := fmt },
            cache := st.cache,
            providers := opts.providers, tools := opts.tools,
            defaults := opts.defaults }
        let fmtTruthy :=
          match fmt with
          | some f =>
              match f.json with
              | some (.boolVal b) => b
              | some (.strVal s) => s ≠ ""
              | none => false
          | none => false
        let (value, newWarnings) ←
          if fmtTruthy then
            match res.messages.getLast? with
            | none =>
                -- unreachable: executeOutput always returns a nonempty list
                .error (.typeError "content of undefined")
            | some lm =>
                match ext.jsonParse lm.content with
                | some v => .ok (some v, ([] : List String))
                | none => .ok (none, ["Failed to parse JSON"])
          else .ok (none, ([] : List String))
        let outputs' ←
          if strTruthy id then
            match res.messages.getLast? with
            | none =>
                -- unreachable: executeOutput always returns a nonempty list
                .error (.typeError "spread of undefined")
            | some lm =>
                .ok (recordSet st.outputs (id.getD "")
                  { msg := lm, value := value })
          else .ok st.outputs
        runTape ext fuel opts rest
          { msgs := res.messages, outputs := outputs',
            warnings := st.warnings ++ newWarnings,
            cost := addCost st.cost res.cost,
            cache := res.cache,
            providerCalls := st.providerCalls + res.providerCalls }

/-- The return value of `executeChain` (`{messages, outputs}`) together
with the instrumented side effects. -/
structure ChainOutcome where
  messages : List Message
  outputs : List (String × ContextOutput)
  warnings : List String
  cost : Cost
  cache : Option Cache
  providerCalls : Nat

/-- From src/unnamed/part_000 `executeChain`. -/
def executeChain (ext : Externals) (fuel : Nat) (opts : ExecuteChainOptions) :
    Except YaplError ChainOutcome := do
  let _inputs ← processInputs opts.inputs opts.chain.inputs
  let tape ← messagesToInstructions opts.chain.messages
  let st ← runTape ext fuel { opts with inputs := _inputs } tape
    { msgs := [], outputs := [], warnings := [], cost := zeroCost,
      cache := opts.cache, providerCalls := 0 }
  .ok { messages := st.msgs, outputs := st.outputs, warnings := st.warnings,
        cost := st.cost, cache := st.cache, providerCalls := st.providerCalls }

/-! ### Dependency validation (src/unnamed/part_001) -/

/-- The dependency map handed to `validateChainDependencies`:
chain name to declared dependency names, in document order. -/
abbrev DepMap : Type := List (String × List String)

def lookupDeps (g : DepMap) (a : String) : Option (List String) :=
  (g.find? (fun e => e.1 = a)).map (fun e => e.2)

/-- The recursive `dfs` of src/unnamed/part_001
`validateChainDependencies`: returns whether a chain on the current path
was re-encountered (a cycle), threading the persistent `visited` set; the
`currentPath` stack is restored on every false return, so each call site
keeps its own copy.  Encountering a name absent from the map throws
`undeclaredDependency` naming the missing chain and its dependent
(`currentPath[currentPath.length - 2]`).  The source recursion is
unbounded; fuel makes it structural. -/
def dfs (g : DepMap) : Nat → String → List String → List String →
    Except YaplError (Bool × List String)
  | 0, _, _, _ => .error .fuelExhausted
  | fuel + 1, chain, currentPath, visited =>
    if chain ∈ currentPath then .ok (true, visited)
    else if chain ∈ visited then .ok (false, visited)
    else
      let currentPath' := currentPath ++ [chain]
      let visited' := visited ++ [chain]
      match lookupDeps g chain with
      | none => .error (.undeclaredDependency chain currentPath.getLast?)
      | some deps =>
          deps.foldl (fun acc dep =>
            match acc with
            | .ok (false, v) => dfs g fuel dep currentPath' v
            | other => other) (.ok (false, visited'))

/-- Every name occurring in a dependency map (keys and dependency
entries); bounds the depth of the `dfs` recursion. -/
def allNames (g : DepMap) : List String :=
  g.map (fun e => e.1) ++ (g.map (fun e => e.2)).flatten

def dfsFuel (g : DepMap) : Nat := (allNames g).length + 1

/-- From src/unnamed/part_001 `validateChainDependencies`: run `dfs` from
every chain in document order; a true return raises
`circularDependency` naming the chain the traversal started from. -/
def validateChainDependencies (g : DepMap) : Except YaplError Unit :=
  (g.foldl (fun (acc : Except YaplError (List String)) entry =>
    match acc with
    | .ok visited =>
        match dfs g (dfsFuel g) entry.1 [] visited with
        | .ok (true, _) => .error (.circularDependency entry.1)
        | .ok (false, v) => .ok v
        | .error e => .error e
    | .error e => .error e) (.ok ([] : List String))).map (fun _ => ())

/-- The duplicate-output / misplaced-default-output loop of
src/unnamed/part_001 `validateSchema`, over one chain's raw messages.
Only object-form `output` entries with a truthy id participate. -/
def checkOutputIdsLoop (chainName : String) (total : Nat) :
    Nat → List RawMessage → List String → Except YaplError Unit
  | _, [], _ => .ok ()
  | i, m :: rest, seen =>
    match m with
    | .output (some oid) _ _ _ _ =>
        if oid ≠ "" then
          if oid ∈ seen then .error (.duplicateOutput chainName oid)
          else if oid = DEFAULT_OUTPUT_ID ∧ i ≠ total - 1 then
            .error (.misplacedDefaultOutput chainName)
          else checkOutputIdsLoop chainName total (i + 1) rest (seen ++ [oid])
        else checkOutputIdsLoop chainName total (i + 1) rest seen
    | _ => checkOutputIdsLoop chainName total (i + 1) rest seen

/-- The opening of src/unnamed/part_001 `validateSchema`: for a
multi-chain document run `validateChainDependencies` and keep the chain
record; a single-chain document becomes the one-entry record under the
reserved default chain id (with no dependency traversal). -/
def schemaChains (data : Schema) :
    Except YaplError (List (String × ChainDef)) :=
  match data with
  | .multi _ _ _ _ cs => do
      validateChainDependencies (cs.map (fun e => (e.1, e.2.dependsOn.getD [])))
      pure cs
  | .single c => pure [(DEFAULT_CHAIN_ID, { dependsOn := some [], chain := c })]

/-- The `schema.inputs ?? []` selector of `validateSchema`: only the
document's top-level declared inputs (for a single-chain document, the
chain's own inputs). -/
def topLevelInputs (data : Schema) : List String :=
  (match data with
   | .single c => c.inputs
   | .multi _ _ i _ _ => i).getD []

/-- From src/unnamed/part_001 `validateSchema`: dependency validation for
multi-chain documents, the per-chain output id checks, and the
reserved-input check — which reads only the document's top-level
`inputs` against the keys of the builtins object (`chains`, `outputs`). -/
def validateSchema (data : Schema) (builtinInputs : Option BuiltinInputs) :
    Except YaplError Unit := do
  let chains ← schemaChains data
  chains.forM (fun e =>
    checkOutputIdsLoop e.1 e.2.chain.messages.length 0 e.2.chain.messages [])
  let builtinKeys :=
    match builtinInputs with
    | some _ => ["chains", "outputs"]
    | none => ([] : List String)
  (topLevelInputs data).forM (fun i =>
    if i ∈ builtinKeys then .error (.reservedInput i) else .ok ())

/-! ### Program scheduler and top-level call (src/yapl-js/src/index.ts) -/

/-- From src/yapl-js/src/index.ts `YaplOptions` plus the constructor's
stored fields. -/
structure YaplOptions where
  defaults : Option YaplDefaults := none
  tools : List Tool := []
  providers : List Provider
  cache : Option Cache := none

/-- The scheduler's threaded state: accumulated per-chain results, the
order in which chain executions were started (instrumentation), the
engine-level cost accumulator, and the cache. -/
structure SchedState where
  results : List (String × ChainResult)
  trace : List String
  cost : Cost
  cache : Option Cache

/-- One `Promise.all` wave of the multi-chain loop in `Yapl._call`:
execute the listed chains against the pre-wave builtins snapshot (the
shared `builtins.chains` is only reassigned after the wave completes).
Each chain inherits the document-level provider/model when it omits its
own. -/
def runWave (ext : Externals) (fuel : Nat) (docProvider : Option String)
    (docModel : Option SchemaModel) (chains : List (String × ChainDef))
    (callInputs : Inputs) (builtins : BuiltinInputs)
    (providers : List Provider) (toolSet : List Tool)
    (defaults : Option YaplDefaults) :
    List String → SchedState → Except YaplError SchedState
  | [], st => .ok st
  | name :: rest, st =>
    match lookupRecord chains name with
    | none =>
        -- unreachable: wave names are drawn from the chain map itself
        .error (.typeError "chain lookup")
    | some cd => do
        let outcome ← executeChain ext fuel
          { chain := { cd.chain with
              provider := cd.chain.provider <|> docProvider,
              model := cd.chain.model <|> docModel },
            inputs := callInputs, builtins := builtins, id := name,
            cache := st.cache, providers := providers, tools := toolSet,
            defaults := defaults }
        runWave ext fuel docProvider docModel chains callInputs builtins
          providers toolSet defaults rest
          { results := recordSet st.results name
              { messages := outcome.messages, outputs := outcome.outputs },
            trace := st.trace ++ [name],
            cost := addCost st.cost outcome.cost,
            cache := outcome.cache }

/-- The `while (satisfied.length < Object.keys(data.chains).length)` loop
of `Yapl._call`: each round filters the chain entries whose declared
dependencies are all members of `satisfied` (note: without excluding
chains already executed), runs that wave, merges the results into the
shared builtins `chains` record, and appends the wave's names to
`satisfied`. -/
def schedulerLoop (ext : Externals) (fuel : Nat) (docProvider : Option String)
    (docModel : Option SchemaModel) (chains : List (String × ChainDef))
    (callInputs : Inputs) (providers : List Provider) (toolSet : List Tool)
    (defaults : Option YaplDefaults) :
    Nat → List String → BuiltinInputs → SchedState →
    Except YaplError SchedState
  | 0, _, _, _ => .error .fuelExhausted
  | waves + 1, satisfied, builtins, st =>
    if satisfied.length < chains.length then do
      let next := (chains.filter (fun e =>
        (e.2.dependsOn.getD []).all (fun d => satisfied.contains d))).map
          (fun e => e.1)
      let st' ← runWave ext fuel docProvider docModel chains callInputs
        builtins providers toolSet defaults next st
      let builtins' := { builtins with chains := st'.results }
      schedulerLoop ext fuel docProvider docModel chains callInputs providers
        toolSet defaults waves (satisfied ++ next) builtins' st'
    else .ok st

/-- From src/public-types.ts `CallResult`: the top-level convenience
projections plus the chains record. -/
structure CallResult where
  messages : Option (List Message)
  output : Option ContextOutput
  content : Option String
  value : Option Json
  chains : List (String × ChainResult)

/-- The single-chain result literal of `Yapl._call`
(src/yapl-js/src/index.ts lines 130-138).  JS evaluates the fields in
source order: `content` reads `messages[messages.length - 1].content`
and `value` reads `outputs[DEFAULT_OUTPUT_ID].value` without optional
chaining, so either read throws a TypeError when its base is undefined. -/
def singleChainResult (result : ChainResult) : Except YaplError CallResult := do
  let lastMsg ←
    match result.messages.getLast? with
    | some m => .ok m
    | none => .error (.typeError "content of messages[-1]")
  let defOut ←
    match lookupRecord result.outputs DEFAULT_OUTPUT_ID with
    | some o => .ok o
    | none => .error (.typeError "value of outputs[default]")
  .ok { messages := some result.messages,
        output := lookupRecord result.outputs DEFAULT_OUTPUT_ID,
        content := some lastMsg.content,
        value := defOut.value,
        chains := [(DEFAULT_OUTPUT_ID, result)] }

/-- The multi-chain result literal of `Yapl._call`
(src/yapl-js/src/index.ts lines 164-171): every projection of the
default chain is optional-chained except the trailing
`messages[length - 1].content` read, which still throws when the default
chain exists but has an empty message list. -/
def multiChainResult (results : List (String × ChainResult)) :
    Except YaplError CallResult :=
  match lookupRecord results DEFAULT_CHAIN_ID with
  | none =>
      .ok { messages := none, output := none, content := none, value := none,
            chains := results }
  | some dc => do
      let lastMsg ←
        match dc.messages.getLast? with
        | some m => .ok m
        | none => .error (.typeError "content of messages[-1]")
      .ok { messages := some dc.messages,
            output := lookupRecord dc.outputs DEFAULT_OUTPUT_ID,
            content := some lastMsg.content,
            value := (lookupRecord dc.outputs DEFAULT_OUTPUT_ID).bind
              (fun o => o.value),
            chains := results }

/-- The outcome of one top-level invocation: the source's `CallResult`
plus instrumentation (the order in which chain executions started, the
accumulated cost, the final cache state). -/
structure CallOutcome where
  result : CallResult
  trace : List String
  cost : Cost
  cache : Option Cache

/-- From src/yapl-js/src/index.ts `Yapl._call`: dispatch on the document
shape.  A single-chain document runs `executeChain` once under the
reserved default id with constructor defaults merged in; a multi-chain
document runs the scheduler loop and projects the reserved default
chain. -/
def yaplCall (ext : Externals) (fuel : Nat) (opts : YaplOptions)
    (data : Schema) (inputs : Inputs) (builtins : BuiltinInputs) :
    Except YaplError CallOutcome :=
  match data with
  | .single c => do
      let mdl : Option Model :=
        match c.model with
        | some sm => toModel (some sm)
        | none => opts.defaults.bind (fun d => d.model)
      let outcome ← executeChain ext fuel
        { chain := { messages := c.messages,
                     inputs := some (c.inputs.getD []),
                     model := mdl.map SchemaModel.obj,
                     provider := c.provider <|> opts.defaults.bind (fun d => d.provider),
                     tools := c.tools <|> opts.defaults.bind (fun d => d.tools) },
          inputs := inputs, builtins := builtins, id := DEFAULT_OUTPUT_ID,
          cache := opts.cache, providers := opts.providers,
          tools := opts.tools, defaults := opts.defaults }
      let callRes ← singleChainResult
        { messages := outcome.messages, outputs := outcome.outputs }
      .ok { result := callRes, trace := [DEFAULT_OUTPUT_ID],
            cost := outcome.cost, cache := outcome.cache }
  | .multi p m _ _ chains => do
      let st ← schedulerLoop ext fuel p m chains inputs opts.providers
        opts.tools opts.defaults fuel [] builtins
        { results := [], trace := [], cost := zeroCost, cache := opts.cache }
      let callRes ← multiChainResult st.results
      .ok { result := callRes, trace := st.trace, cost := st.cost,
            cache := st.cache }

/-! ### Specification predicates for the dependency graph -/

/-- Specification predicate: chain `a` declares chain `b` among its
dependencies. -/
def depEdge (g : DepMap) (a b : String) : Prop :=
  ∃ ds, lookupDeps g a = some ds ∧ b ∈ ds

/-- Specification predicate: the dependency map contains a cycle. -/
def hasCycle (g : DepMap) : Prop :=
  ∃ a, Relation.TransGen (depEdge g) a a

/-- Specification predicate: every referenced dependency is declared as a
chain of the map. -/
def fullyDeclared (g : DepMap) : Prop :=
  ∀ a b, depEdge g a b → (lookupDeps g b).isSome

/-- The id field of an output instruction (undefined on other variants). -/
def instrOutputId : Instruction → Option String
  | .output id _ _ _ _ => id
  | _ => none

/-! ### Concrete fixtures used by the counterexample and witness theorems -/

/-- Externals with identity rendering, an always-failing JSON parse, and
an always-true schema validator. -/
def testExt : Externals :=
  { render := fun t _ => t, jsonParse := fun _ => none,
    schemaValidate := fun _ _ => true }

/-- A provider named "test" answering a fixed assistant message. -/
def testProvider : Provider :=
  { name := "test",
    execute := fun _ _ _ => .ok ([{ role := "assistant", content := "R" }], zeroCost) }

/-- A provider named "test" answering a given fixed assistant message. -/
def constProvider (s : String) : Provider :=
  { name := "test",
    execute := fun _ _ _ => .ok ([{ role := "assistant", content := s }], zeroCost) }

/-- A provider named "p" whose transport always fails (never reached in
the theorems that use it). -/
def provP : Provider :=
  { name := "p", execute := fun _ _ _ => .error "unreachable" }

def chainB : Chain :=
  { messages := [.user "hi b"], provider := some "test", model := some (.str "m") }

def chainA : Chain :=
  { messages := [.user "hi a"], provider := some "test", model := some (.str "m") }

/-- Two chains: `b` with no dependencies and `a` depending on `b`. -/
def docMulti : Schema := .multi none none none none
  [("b", { dependsOn := some [], chain := chainB }),
   ("a", { dependsOn := some ["b"], chain := chainA })]

/-- A three-chain linear dependency document `a ← b ← c`. -/
def docMulti3 : Schema := .multi none none none none
  [("a", { dependsOn := some [], chain := chainA }),
   ("b", { dependsOn := some ["a"], chain := chainB }),
   ("c", { dependsOn := some ["b"], chain := chainA })]

/-- A single-chain document whose final output instruction carries the
explicit non-default id "other". -/
def docSingleOther : Schema := .single
  { messages := [.user "hi", .output (some "other") none none none none],
    provider := some "test", model := some (.str "m") }

/-- A tool whose executor reports whether it received arguments or the JS
`undefined`. -/
def sniffTool : Tool :=
  { name := "t", description := "d", arguments := Json.obj [],
    execute := fun args =>
      .ok (match args with | none => "GOT_UNDEFINED" | some _ => "GOT_ARGS") }

/-- A provider that requests one call of tool "t" on the first round and
finishes on the second. -/
def toolCallProvider : Provider :=
  { name := "test",
    execute := fun _ msgs _ =>
      if msgs.length ≤ 1 then
        .ok ([{ role := "assistant", content := "calling",
                toolCalls := some [{ id := "c1", name := "t", arguments := "argstr" }] }],
             zeroCost)
      else .ok ([{ role := "assistant", content := "done" }], zeroCost) }

/-- Externals whose JSON parse accepts exactly the payload "argstr" and
whose schema validator rejects everything. -/
def parseExt : Externals :=
  { render := fun t _ => t,
    jsonParse := fun s => if s = "argstr" then some (Json.obj []) else none,
    schemaValidate := fun _ _ => false }

/-- The `executeOutput` arguments of the tool-call scenario: one user
message of history, tool "t" requested. -/
def c2args : ExecuteOutputArgs :=
  { messages := [{ role := "user", content := "U" }],
    output := { provider := some "test", model := some { name := "m" },
                tools := some ["t"] },
    cache := none, providers := [toolCallProvider], tools := [sniffTool],
    defaults := none }

/-- A multi-chain document in which chain "a" declares the reserved input
name "outputs". -/
def docReserved : Schema := .multi none none none none
  [("a", { dependsOn := some [],
           chain := { messages := [.user "x"], inputs := some ["outputs"] } })]

/-- A dependency map whose cycle (a ↔ b) is entered from the outside
chain x. -/
def gOutside : DepMap := [("x", ["a"]), ("a", ["b"]), ("b", ["a"])]

/-- The `executeOutput` arguments of the cache scenario: a provider with
nonzero cost, an empty cache. -/
def costProvider : Provider :=
  { name := "test",
    execute := fun _ _ _ =>
      .ok ([{ role := "assistant", content := "R" }],
           { usd := 1, tokens := 2, ms := 3 }) }

def c8args : ExecuteOutputArgs :=
  { messages := [{ role := "user", content := "U" }],
    output := { provider := some "test", model := some { name := "m" },
                tools := none },
    cache := some [], providers := [costProvider], tools := [],
    defaults := none }

/-- Externals whose JSON parse always yields the number 1. -/
def jsonOkExt : Externals :=
  { render := fun t _ => t, jsonParse := fun _ => some (Json.num 1),
    schemaValidate := fun _ _ => true }

/-- Caller inputs that smuggle values under both reserved keys. -/
def c10inputs : Inputs := [("chains", Json.num 1), ("outputs", Json.null)]

/-- The content-addressed key of the cache scenario's first call. -/
def c8key : String := hashKey
  { provider := "test", model := { name := "m" }, tools := [], format := none,
    messages := [⟨"user", "U", none, none⟩] }

/-- The first call's result in the cache scenario: a provider round was
paid for and its trailing message is now stored under the key. -/
def c8result : OutputResult :=
  { messages := [⟨"user", "U", none, none⟩, ⟨"assistant", "R", none, none⟩],
    cost := { usd := 1, tokens := 2, ms := 3 },
    cache := some [(c8key, [⟨"assistant", "R", none, none⟩])],
    providerCalls := 1 }

/-- A single-chain document declaring the reserved input name "chains". -/
def docSingleReserved : Schema :=
  .single { messages := [.user "x"], inputs := some ["chains"] }

/-- A chain with one user message and a JSON-format output. -/
def c9chain (u : String) : Chain :=
  { messages := [.user u, .output none none none none
      (some { json := some (.boolVal true) })],
    provider := some "test", model := some (.str "m") }

/-! ### Dependency-validator reasoning: fold form, invariants, measures -/

/-- The dependency loop of `dfs` as a named fold, for reasoning. -/
def dfsFold (g : DepMap) (fuel : Nat) (p : List String) (deps : List String)
    (acc : Except YaplError (Bool × List String)) :
    Except YaplError (Bool × List String) :=
  deps.foldl (fun acc dep =>
    match acc with
    | .ok (false, v) => dfs g fuel dep p v
    | other => other) acc

/-- Specification predicate: no cycle is reachable from `v` along declared
dependency edges. -/
def noCycleFrom (g : DepMap) (v : String) : Prop :=
  ¬ ∃ c, Relation.ReflTransGen (depEdge g) v c ∧
    Relation.TransGen (depEdge g) c c

/-- The depth-first traversal invariant: every completed (visited,
off-path) chain has all its dependency targets completed and no cycle
reachable from it. -/
def dfsInv (g : DepMap) (path visited : List String) : Prop :=
  ∀ v ∈ visited, v ∉ path →
    (∀ w, depEdge g v w → w ∈ visited ∧ w ∉ path) ∧ noCycleFrom g v

def keys (g : DepMap) : List String := g.map (fun e => e.1)

/-- The current-path stack concatenated with the chain under visit is a
consecutive edge path. -/
def edgePath (g : DepMap) : List String → String → Prop
  | [], _ => True
  | p :: ps, chain => List.Chain (depEdge g) p (ps ++ [chain])

/-- The number of graph names not yet visited: the fuel measure. -/
def remCount (g : DepMap) (visited : List String) : Nat :=
  ((allNames g).dedup.filter (fun x => x ∉ visited)).length

/-- The outer loop of `validateChainDependencies` as a named step
function. -/
def validateStep (g : DepMap) (acc : Except YaplError (List String))
    (entry : String × List String) : Except YaplError (List String) :=
  match acc with
  | .ok visited =>
      match dfs g (dfsFuel g) entry.1 [] visited with
      | .ok (true, _) => .error (.circularDependency entry.1)
      | .ok (false, v) => .ok v
      | .error e => .error e
  | .error e => .error e

/-- A two-chain acyclic, fully-declared dependency map. -/
def gAcyclic : DepMap := [("a", ["b"]), ("b", [])]

/-! ## Theorems -/

/-- No chain of `gOutside` declares "x" as a dependency. -/
theorem gOutside_no_edge_into_x (b : String) (ds : List String)
    (h : lookupDeps gOutside b = some ds) : "x" ∉ ds := by
  by_cases hbx : ("x" : String) = b
  · subst hbx
    obtain rfl : ds = ["a"] := by
      have h2 : some ds = some ["a"] :=
        h.symm.trans (show lookupDeps gOutside "x" = some ["a"] from rfl)
      exact (Option.some.inj h2).symm ▸ rfl
    decide
  · by_cases hba : ("a" : String) = b
    · subst hba
      obtain rfl : ds = ["b"] := by
        have h2 : some ds = some ["b"] :=
          h.symm.trans (show lookupDeps gOutside "a" = some ["b"] from rfl)
        exact (Option.some.inj h2).symm ▸ rfl
      decide
    · by_cases hbb : ("b" : String) = b
      · subst hbb
        obtain rfl : ds = ["a"] := by
          have h2 : some ds = some ["a"] :=
            h.symm.trans (show lookupDeps gOutside "b" = some ["a"] from rfl)
          exact (Option.some.inj h2).symm ▸ rfl
        decide
      · exfalso
        have hnone : lookupDeps gOutside b = none := by
          simp [lookupDeps, gOutside, List.find?, hbx, hba, hbb]
        rw [hnone] at h
        exact Option.noConfusion h

/-- C1: for the two-chain document (b with no dependencies, a depending
on b) the scheduler starts chain b a second time in the wave that starts
a, because wave selection never excludes already-satisfied chains; with
the linear three-chain document the duplicate `satisfied` entries end the
loop before chain c is ever started.  This refutes "each chain executes
exactly once" and "b is not executed again". -/
theorem scheduler_reexecutes_satisfied_chains :
    (yaplCall testExt 5 { providers := [testProvider] } docMulti [] {}).map
      (fun o => o.trace) = .ok ["b", "b", "a"] ∧
    (yaplCall testExt 8 { providers := [testProvider] } docMulti3 [] {}).map
      (fun o => o.trace) = .ok ["a", "a", "b"] :=
  ⟨rfl, rfl⟩

/-- C2: in the tool-call loop, a call whose argument payload parses but
fails schema validation (the externals' validator rejects everything) is
not answered with a tool-role error message; instead the tool's executor
is invoked — and invoked with the JS `undefined` rather than the parsed
arguments (the appended tool message carries the executor's
"GOT_UNDEFINED" sentinel), after which the loop re-invokes the provider
and completes without raising. -/
theorem toolLoop_runs_executor_with_undefined_args :
    (executeOutput parseExt 5 c2args).map
      (fun r => (r.messages.map (fun m : Message => (m.role, m.content)),
        r.providerCalls))
    = .ok ([("user", "U"), ("assistant", "calling"), ("tool", "GOT_UNDEFINED"),
            ("assistant", "done")], 2) :=
  rfl

/-- C4: a single-chain invocation whose chain records its only output
under the explicit id "other" (so no record exists under the reserved
default output id) does not return null convenience fields: the
`value` projection reads `.value` of an undefined record and the
invocation throws a TypeError. -/
theorem singleChain_missing_default_output_throws :
    yaplCall testExt 5 { providers := [testProvider] } docSingleOther [] {}
      = .error (.typeError "value of outputs[default]") :=
  rfl

/-- C3 counterexample: with an output-level empty tool list and a
non-empty default tool list, `resolveConfig` resolves an empty tool set
rather than falling back to the defaults (which would resolve tool "t"),
refuting the claimed empty-list fallback. -/
theorem resolveConfig_empty_tools_countermodel :
    (resolveConfig
        { provider := some "p", model := some { name := "m" }, tools := some [] }
        (some { tools := some ["t"] }) [provP] [sniffTool]).map
      (fun c => c.tools.map (fun t => t.name)) = .ok [] ∧
    (resolveConfig
        { provider := some "p", model := some { name := "m" }, tools := none }
        (some { tools := some ["t"] }) [provP] [sniffTool]).map
      (fun c => c.tools.map (fun t => t.name)) = .ok ["t"] ∧
    ([] : List String) ≠ ["t"] :=
  ⟨rfl, rfl, by decide⟩

/-- C6 counterexample: a multi-chain document in which a chain declares
the reserved input name "outputs" passes validation, because the
reserved-name check reads only the document's top-level inputs. -/
theorem multiChain_reserved_chain_input_accepted :
    validateSchema docReserved (some {}) = .ok () :=
  rfl

/-- C7 counterexample: building the instruction tape of a chain with an
empty raw message list does not succeed: the tape builder reads the
`type` field of `mapped[-1]` (undefined) and throws. -/
theorem messagesToInstructions_empty_throws :
    messagesToInstructions [] = .error (.typeError "reading type of mapped[-1]") :=
  rfl

/-- C5 counterexample: for the map x → a → b → a, validation fails with a
circular-dependency error naming "x", which does not lie on the cycle
(no cyclic path passes through "x", since no chain depends on it). -/
theorem circular_error_names_entry_chain_off_cycle :
    validateChainDependencies gOutside = .error (.circularDependency "x") ∧
    ¬ Relation.TransGen (depEdge gOutside) "x" "x" := by
  refine ⟨rfl, fun h => ?_⟩
  cases h with
  | single h =>
      obtain ⟨ds, hds, hm⟩ := h
      exact gOutside_no_edge_into_x _ _ hds hm
  | tail _ h =>
      obtain ⟨ds, hds, hm⟩ := h
      exact gOutside_no_edge_into_x _ _ hds hm

/-- C9: executing a chain whose output instruction requests JSON format
(against a provider answering the literal text `s`, for any externals and
any user message) records the JSON-parse of the trailing message's
content as the output's value when the parse succeeds, and on parse
failure throws no error, logs one warning, and leaves the value unset. -/
theorem executeChain_json_output_value (ext : Externals) (u s : String) :
    (∀ v, ext.jsonParse s = some v →
      executeChain ext 3
        { chain := c9chain u, inputs := [], builtins := {}, id := "x",
          cache := none, providers := [constProvider s], tools := [],
          defaults := none } =
      .ok { messages := [⟨"user", ext.render (stripNl u) (mkContext [] {}), none, none⟩,
                         ⟨"assistant", s, none, none⟩],
            outputs := [("default", ⟨⟨"assistant", s, none, none⟩, some v⟩)],
            warnings := [], cost := zeroCost, cache := none, providerCalls := 1 }) ∧
    (ext.jsonParse s = none →
      executeChain ext 3
        { chain := c9chain u, inputs := [], builtins := {}, id := "x",
          cache := none, providers := [constProvider s], tools := [],
          defaults := none } =
      .ok { messages := [⟨"user", ext.render (stripNl u) (mkContext [] {}), none, none⟩,
                         ⟨"assistant", s, none, none⟩],
            outputs := [("default", ⟨⟨"assistant", s, none, none⟩, none⟩)],
            warnings := ["Failed to parse JSON"], cost := zeroCost,
            cache := none, providerCalls := 1 }) := by
  constructor
  · intro v hv
    simp [executeChain, processInputs, messagesToInstructions, mapRaw, updateLast,
      assignDefaultId, isOutputInstr, runTape, renderInstruction, mkContext,
      executeOutput, resolveConfig, selectModel, selectProviderName,
      selectToolNames, strOr, strTruthy, toolLoop, chainCallModel, toModel,
      c9chain, constProvider, hv, dedupFirst, recordSet, lookupRecord, addCost,
      zeroCost, DEFAULT_OUTPUT_ID, bind, Except.bind, List.mapM, List.mapM.loop,
      pure, Except.pure]
  · intro hn
    simp [executeChain, processInputs, messagesToInstructions, mapRaw, updateLast,
      assignDefaultId, isOutputInstr, runTape, renderInstruction, mkContext,
      executeOutput, resolveConfig, selectModel, selectProviderName,
      selectToolNames, strOr, strTruthy, toolLoop, chainCallModel, toModel,
      c9chain, constProvider, hn, dedupFirst, recordSet, lookupRecord, addCost,
      zeroCost, DEFAULT_OUTPUT_ID, bind, Except.bind, List.mapM, List.mapM.loop,
      pure, Except.pure]

/-- Witness for C9 at a concrete input: parsing succeeds and the value is
recorded. -/
theorem executeChain_json_output_value_witness :
    executeChain jsonOkExt 3
      { chain := c9chain "U", inputs := [], builtins := {}, id := "x",
        cache := none, providers := [constProvider "1"], tools := [],
        defaults := none } =
    .ok { messages := [⟨"user", jsonOkExt.render (stripNl "U") (mkContext [] {}), none, none⟩,
                       ⟨"assistant", "1", none, none⟩],
          outputs := [("default", ⟨⟨"assistant", "1", none, none⟩, some (Json.num 1)⟩)],
          warnings := [], cost := zeroCost, cache := none, providerCalls := 1 } :=
  (executeChain_json_output_value jsonOkExt "U" "1").1 (Json.num 1) rfl

/-- C10: for caller-input maps that agree outside the reserved keys
`chains` and `outputs`, input processing accepts both maps unchanged, the
template contexts coincide (the builtins, spread after the caller inputs,
shadow those keys), and every instruction renders identically under any
render function. -/
theorem render_insensitive_to_reserved_caller_inputs
    (render : RenderFn) (i1 i2 : Inputs) (b : BuiltinInputs)
    (s : Option (List String))
    (h : ∀ k, k ≠ "chains" → k ≠ "outputs" →
      lookupRecord i1 k = lookupRecord i2 k) :
    processInputs i1 s = .ok i1 ∧ processInputs i2 s = .ok i2 ∧
    mkContext i1 b = mkContext i2 b ∧
    ∀ inst, renderInstruction render inst i1 b = renderInstruction render inst i2 b := by
  have hctx : mkContext i1 b = mkContext i2 b := by
    funext k
    by_cases hk1 : k = "chains"
    · simp [mkContext, hk1]
    · by_cases hk2 : k = "outputs"
      · simp [mkContext, hk1, hk2]
      · simp [mkContext, hk1, hk2, h k hk1 hk2]
  refine ⟨rfl, rfl, hctx, fun inst => ?_⟩
  simp only [renderInstruction, hctx]

/-- Witness for C10 at a concrete input: a map binding only the reserved
keys behaves exactly like the empty map. -/
theorem render_insensitive_to_reserved_caller_inputs_witness :
    processInputs c10inputs none = .ok c10inputs ∧
    processInputs [] none = .ok ([] : Inputs) ∧
    mkContext c10inputs {} = mkContext [] {} ∧
    ∀ inst, renderInstruction (fun t _ => t) inst c10inputs {} =
      renderInstruction (fun t _ => t) inst [] {} :=
  render_insensitive_to_reserved_caller_inputs (fun t _ => t) c10inputs [] {} none
    (by
      intro k hk1 hk2
      simp [c10inputs, lookupRecord, List.find?, Ne.symm hk1, Ne.symm hk2])

/-- The tool-call loop body only appends messages. -/
theorem processToolCalls_extends (ext : Externals) (tools : List Tool) :
    ∀ (calls : List ToolCall) (ms out : List Message),
      processToolCalls ext tools calls ms = .ok out → ∃ e, out = ms ++ e := by
  intro calls
  induction calls with
  | nil =>
      intro ms out h
      simp only [processToolCalls] at h
      exact ⟨[], by simp [← Except.ok.inj h]⟩
  | cons call rest ih =>
      intro ms out h
      simp only [processToolCalls] at h
      cases hfind : tools.find? (fun t => t.name = call.name) with
      | none => simp only [hfind] at h; exact absurd h (by simp)
      | some tool =>
          simp only [hfind] at h
          cases hparse : ext.jsonParse call.arguments with
          | none =>
              simp only [hparse] at h
              obtain ⟨e, he⟩ := ih _ _ h
              exact ⟨_, by simpa using he⟩
          | some parsedArgs =>
              simp only [hparse] at h
              cases hexe : tool.execute none with
              | ok res =>
                  simp only [hexe] at h
                  obtain ⟨e, he⟩ := ih _ _ h
                  exact ⟨_, by simpa using he⟩
              | error e0 =>
                  simp only [hexe] at h
                  obtain ⟨e, he⟩ := ih _ _ h
                  exact ⟨_, by simpa using he⟩

/-- A completed tool loop extends the history by a nonempty suffix. -/
theorem toolLoop_extends (ext : Externals) (config : ResolvedConfig)
    (format : Option OutputFormat) :
    ∀ (fuel : Nat) (msgs : List Message) (cost : Cost) (calls : Nat)
      (out : List Message) (c : Cost) (k : Nat),
      toolLoop ext config format fuel msgs cost calls = .ok (out, c, k) →
      ∃ suf, out = msgs ++ suf ∧ suf ≠ [] := by
  intro fuel
  induction fuel with
  | zero => intro _ _ _ _ _ _ h; exact absurd h (by simp [toolLoop])
  | succ fuel ih =>
      intro msgs cost calls out c k h
      simp only [toolLoop, bind, Except.bind] at h
      cases hexec : config.provider.execute config.model msgs format with
      | error e => simp only [hexec] at h; exact absurd h (by simp)
      | ok pr =>
          obtain ⟨newMessages, nc⟩ := pr
          simp only [hexec] at h
          cases hlast : newMessages.getLast? with
          | none => simp only [hlast] at h; exact absurd h (by simp)
          | some lastMessage =>
              simp only [hlast] at h
              have hnm : newMessages ≠ [] := by
                intro hnil
                rw [hnil] at hlast
                exact Option.noConfusion hlast
              cases htc : lastMessage.toolCalls with
              | none =>
                  simp only [htc] at h
                  have h2 := Except.ok.inj h
                  refine ⟨newMessages, ?_, hnm⟩
                  have h3 : msgs ++ newMessages = out := congrArg Prod.fst h2
                  exact h3.symm
              | some toolCalls =>
                  simp only [htc] at h
                  cases hpm : processToolCalls ext config.tools toolCalls (msgs ++ newMessages) with
                  | error e0 => simp only [hpm] at h; exact absurd h (by simp)
                  | ok pm =>
                      simp only [hpm] at h
                      obtain ⟨e, he⟩ := processToolCalls_extends ext config.tools _ _ _ hpm
                      by_cases hlen : toolCalls.length > 0
                      · rw [if_pos hlen] at h
                        obtain ⟨suf, hsuf, _⟩ := ih _ _ _ _ _ _ h
                        refine ⟨newMessages ++ e ++ suf, ?_, by simp [hnm]⟩
                        rw [hsuf, he]
                        simp
                      · rw [if_neg hlen] at h
                        have h2 := Except.ok.inj h
                        have h3 : pm = out := congrArg Prod.fst h2
                        refine ⟨newMessages ++ e, ?_, by simp [hnm]⟩
                        rw [← h3, he]
                        simp

/-- Setting then getting the same key on the cache yields the stored value. -/
theorem cacheGet_cacheSet (c : Cache) (k : String) (v : List Message) :
    cacheGet (cacheSet c k v) k = some v := by
  induction c with
  | nil => simp [cacheGet, cacheSet, List.find?]
  | cons e c' ih =>
      by_cases hek : e.1 = k
      · simp [cacheGet, cacheSet, List.find?, hek]
      · simp only [cacheSet, List.find?] at ih ⊢
        by_cases hsome : (List.find? (fun e => e.1 = k) c').isSome
        · simp [cacheGet, List.find?, hek, hsome] at ih ⊢
          simpa [hek, hsome] using ih
        · simp [cacheGet, List.find?, hek, hsome] at ih ⊢
          simpa [hek, hsome] using ih

/-- C8: with a cache configured, re-running the same output instruction
with identical pre-call history and effective configuration against the
cache produced by the first run is a hit: the provider is not invoked
(zero provider calls), the incremental cost is zero, the cache is
unchanged, and the returned message list is identical to the first
run's result. -/
theorem executeOutput_cache_idempotent (ext : Externals) (fuel : Nat)
    (args : ExecuteOutputArgs) (c0 : Cache) (r : OutputResult)
    (hc : args.cache = some c0)
    (h : executeOutput ext fuel args = .ok r) :
    executeOutput ext fuel { args with cache := r.cache } =
      .ok { messages := r.messages, cost := zeroCost, cache := r.cache,
            providerCalls := 0 } := by
  simp only [executeOutput, bind, Except.bind, hc, Option.bind] at h
  cases hcfg : resolveConfig args.output args.defaults args.providers args.tools with
  | error e => simp only [hcfg] at h; exact Except.noConfusion h
  | ok config =>
      simp only [hcfg] at h
      cases hget : cacheGet c0 (hashKey
          { provider := config.provider.name, model := config.model,
            tools := config.tools, format := args.output.format,
            messages := args.messages }) with
      | some l =>
          simp only [hget] at h
          by_cases hlen : l.length ≠ 0
          · rw [if_pos hlen] at h
            obtain rfl := (Except.ok.inj h)
            simp only [executeOutput, bind, Except.bind, hcfg, Option.bind, hget]
            rw [if_pos hlen]
          · rw [if_neg hlen] at h
            cases htl : toolLoop ext config args.output.format fuel args.messages zeroCost 0 with
            | error e => simp only [htl] at h; exact Except.noConfusion h
            | ok trip =>
                obtain ⟨allM, cost', calls'⟩ := trip
                simp only [htl] at h
                obtain rfl := (Except.ok.inj h)
                obtain ⟨suf, hsuf, hsne⟩ := toolLoop_extends ext config args.output.format _ _ _ _ _ _ _ htl
                subst hsuf
                simp only [executeOutput, bind, Except.bind, hcfg, Option.bind,
                  Option.map, List.drop_left, cacheGet_cacheSet]
                rw [if_pos (by simpa using hsne)]
      | none =>
          simp only [hget] at h
          cases htl : toolLoop ext config args.output.format fuel args.messages zeroCost 0 with
          | error e => simp only [htl] at h; exact Except.noConfusion h
          | ok trip =>
              obtain ⟨allM, cost', calls'⟩ := trip
              simp only [htl] at h
              obtain rfl := (Except.ok.inj h)
              obtain ⟨suf, hsuf, hsne⟩ := toolLoop_extends ext config args.output.format _ _ _ _ _ _ _ htl
              subst hsuf
              simp only [executeOutput, bind, Except.bind, hcfg, Option.bind,
                Option.map, List.drop_left, cacheGet_cacheSet]
              rw [if_pos (by simpa using hsne)]

/-- Witness for C8 at a concrete input: the second call against the
stored cache replays the first call's messages at zero cost with no
provider invocation. -/
theorem executeOutput_cache_idempotent_witness :
    executeOutput testExt 3 { c8args with cache := c8result.cache } =
      .ok { messages := c8result.messages, cost := zeroCost,
            cache := c8result.cache, providerCalls := 0 } :=
  executeOutput_cache_idempotent testExt 3 c8args [] c8result rfl rfl

/-- C7 (amended): for every chain with a nonempty raw message list,
building the instruction tape succeeds and the tape ends with an output
instruction carrying a truthy id: an implicit bare output (assigned the
reserved default id) is appended when the last raw element is not an
output, and a final output instruction keeps a truthy explicit id or has
a falsy id replaced by the reserved default id. -/
theorem messagesToInstructions_nonempty_amended (msgs : List RawMessage)
    (h : msgs ≠ []) :
    ∃ tape lastIn lastOut,
      messagesToInstructions msgs = .ok tape ∧
      (msgs.map mapRaw).getLast? = some lastIn ∧
      tape.getLast? = some lastOut ∧
      isOutputInstr lastOut = true ∧
      strTruthy (instrOutputId lastOut) = true ∧
      (isOutputInstr lastIn = false →
        tape = msgs.map mapRaw ++
          [.output (some DEFAULT_OUTPUT_ID) none none none none]) ∧
      (isOutputInstr lastIn = true →
        tape = (msgs.map mapRaw).dropLast ++ [lastOut]) ∧
      (∀ id m p t f, lastIn = .output id m p t f → strTruthy id = false →
        lastOut = .output (some DEFAULT_OUTPUT_ID) m p t f) ∧
      (∀ id m p t f, lastIn = .output id m p t f → strTruthy id = true →
        lastOut = .output id m p t f) := by
  obtain ⟨lastIn, hlast⟩ : ∃ a, (msgs.map mapRaw).getLast? = some a := by
    cases hl : (msgs.map mapRaw).getLast? with
    | some a => exact ⟨a, rfl⟩
    | none =>
        exfalso
        apply h
        have hmn : msgs.map mapRaw = [] := by simpa using hl
        simpa using hmn
  cases hio : isOutputInstr lastIn with
  | false =>
      refine ⟨msgs.map mapRaw ++ [.output (some DEFAULT_OUTPUT_ID) none none none none],
        lastIn, .output (some DEFAULT_OUTPUT_ID) none none none none,
        ?_, hlast, ?_, rfl, by decide, fun _ => rfl, ?_, ?_, ?_⟩
      · simp only [messagesToInstructions, hlast, hio, Bool.false_eq_true,
          if_false, updateLast, List.dropLast_concat, List.getLast?_concat,
          Option.map, Option.toList]
        simp [assignDefaultId, strTruthy]
      · exact List.getLast?_concat _
      · intro htrue; exact absurd (hio ▸ htrue) (by simp)
      · intro id m p t f heq _
        exact absurd hio (by simp [heq, isOutputInstr])
      · intro id m p t f heq _
        exact absurd hio (by simp [heq, isOutputInstr])
  | true =>
      obtain ⟨id, m, p, t, f, rfl⟩ :
          ∃ id m p t f, lastIn = Instruction.output id m p t f := by
        cases lastIn with
        | output id m p t f => exact ⟨id, m, p, t, f, rfl⟩
        | push msg => exact absurd hio (by simp [isOutputInstr])
        | clear s => exact absurd hio (by simp [isOutputInstr])
      refine ⟨(msgs.map mapRaw).dropLast ++
          [assignDefaultId (.output id m p t f)], .output id m p t f,
        assignDefaultId (.output id m p t f),
        ?_, hlast, List.getLast?_concat _, ?_, ?_, ?_, fun _ => rfl, ?_, ?_⟩
      · simp only [messagesToInstructions, hlast, hio, if_true, updateLast,
          Option.map, Option.toList]
      · simp only [assignDefaultId]
        split
        · rename_i htr
          simp [isOutputInstr]
        · simp [isOutputInstr]
      · simp only [assignDefaultId]
        split
        · rename_i htr
          simpa [instrOutputId] using htr
        · simp [instrOutputId, strTruthy, DEFAULT_OUTPUT_ID]
      · intro hfalse; exact absurd (hio ▸ hfalse) (by simp)
      · intro id' m' p' t' f' heq hfalsy
        obtain ⟨rfl, rfl, rfl, rfl, rfl⟩ :
            id' = id ∧ m' = m ∧ p' = p ∧ t' = t ∧ f' = f := by
          injection heq.symm with h1 h2 h3 h4 h5
          exact ⟨h1, h2, h3, h4, h5⟩
        simp [assignDefaultId, hfalsy]
      · intro id' m' p' t' f' heq htruthy
        obtain ⟨rfl, rfl, rfl, rfl, rfl⟩ :
            id' = id ∧ m' = m ∧ p' = p ∧ t' = t ∧ f' = f := by
          injection heq.symm with h1 h2 h3 h4 h5
          exact ⟨h1, h2, h3, h4, h5⟩
        simp [assignDefaultId, htruthy]

/-- Witness for C7 at a concrete input: a one-element chain gets an
implicit default output appended. -/
theorem messagesToInstructions_nonempty_amended_witness :
    ∃ tape lastIn lastOut,
      messagesToInstructions [RawMessage.user "U"] = .ok tape ∧
      ([RawMessage.user "U"].map mapRaw).getLast? = some lastIn ∧
      tape.getLast? = some lastOut ∧
      isOutputInstr lastOut = true ∧
      strTruthy (instrOutputId lastOut) = true ∧
      (isOutputInstr lastIn = false →
        tape = [RawMessage.user "U"].map mapRaw ++
          [.output (some DEFAULT_OUTPUT_ID) none none none none]) ∧
      (isOutputInstr lastIn = true →
        tape = ([RawMessage.user "U"].map mapRaw).dropLast ++ [lastOut]) ∧
      (∀ id m p t f, lastIn = .output id m p t f → strTruthy id = false →
        lastOut = .output (some DEFAULT_OUTPUT_ID) m p t f) ∧
      (∀ id m p t f, lastIn = .output id m p t f → strTruthy id = true →
        lastOut = .output id m p t f) :=
  messagesToInstructions_nonempty_amended [RawMessage.user "U"] (by simp)

/-- The reserved-input loop of `validateSchema`: it succeeds exactly when
no element is reserved, and otherwise fails naming a reserved element of
the list. -/
theorem reservedInputsForM (l : List String) :
    ((∀ i ∈ l, i ≠ "chains" ∧ i ≠ "outputs") →
      l.forM (fun i => if i ∈ (["chains", "outputs"] : List String)
        then Except.error (YaplError.reservedInput i) else Except.ok ()) = .ok ()) ∧
    ((∃ i ∈ l, i = "chains" ∨ i = "outputs") →
      ∃ j, l.forM (fun i => if i ∈ (["chains", "outputs"] : List String)
        then Except.error (YaplError.reservedInput i) else Except.ok ())
          = .error (.reservedInput j) ∧ j ∈ l ∧ (j = "chains" ∨ j = "outputs")) := by
  induction l with
  | nil =>
      refine ⟨fun _ => rfl, ?_⟩
      rintro ⟨i, hi, _⟩
      cases hi
  | cons hd tl ih =>
      by_cases hhd : hd ∈ (["chains", "outputs"] : List String)
      · constructor
        · intro hall
          obtain ⟨h1, h2⟩ := hall hd (List.mem_cons_self hd tl)
          simp only [List.mem_cons, List.mem_singleton] at hhd
          rcases hhd with h | h
          · exact absurd h h1
          · exact absurd (by simpa using h) h2
        · intro _
          refine ⟨hd, ?_, List.mem_cons_self hd tl, ?_⟩
          · show (if hd ∈ (["chains", "outputs"] : List String)
              then Except.error (YaplError.reservedInput hd)
              else Except.ok ()) >>= _ = _
            rw [if_pos hhd]
            rfl
          · simpa using hhd
      · have hstep : tl.forM (fun i => if i ∈ (["chains", "outputs"] : List String)
            then Except.error (YaplError.reservedInput i) else Except.ok ()) =
            (hd :: tl).forM (fun i => if i ∈ (["chains", "outputs"] : List String)
            then Except.error (YaplError.reservedInput i) else Except.ok ()) := by
          show _ = (if hd ∈ (["chains", "outputs"] : List String)
              then Except.error (YaplError.reservedInput hd)
              else Except.ok ()) >>= _
          rw [if_neg hhd]
          rfl
        constructor
        · intro hall
          rw [← hstep]
          exact ih.1 (fun i hi => hall i (List.mem_cons_of_mem hd hi))
        · rintro ⟨i, hi, hres⟩
          rcases List.mem_cons.mp hi with rfl | hi'
          · exfalso
            apply hhd
            simpa using hres
          · obtain ⟨j, hj1, hj2, hj3⟩ := ih.2 ⟨i, hi', hres⟩
            exact ⟨j, by rw [← hstep]; exact hj1, List.mem_cons_of_mem hd hj2, hj3⟩

/-- C6 (amended): when the earlier validation stages pass, validation
fails with a reserved-input-name error (naming a reserved input) exactly
when the document's top-level declared inputs — for a single-chain
document, the chain's own inputs — contain `chains` or `outputs`;
per-chain inputs of multi-chain documents are not consulted (see the
counterexample).  The check runs at load time, before any provider is
involved. -/
theorem validateSchema_reserved_amended (data : Schema) (b : BuiltinInputs)
    (cs : List (String × ChainDef))
    (hdeps : schemaChains data = .ok cs)
    (houts : cs.forM (fun e =>
      checkOutputIdsLoop e.1 e.2.chain.messages.length 0 e.2.chain.messages [])
      = .ok ()) :
    ((∀ i ∈ topLevelInputs data, i ≠ "chains" ∧ i ≠ "outputs") →
      validateSchema data (some b) = .ok ()) ∧
    ((∃ i ∈ topLevelInputs data, i = "chains" ∨ i = "outputs") →
      ∃ j, validateSchema data (some b) = .error (.reservedInput j) ∧
        j ∈ topLevelInputs data ∧ (j = "chains" ∨ j = "outputs")) := by
  have hbase : validateSchema data (some b) =
      (topLevelInputs data).forM (fun i =>
        if i ∈ (["chains", "outputs"] : List String)
        then Except.error (YaplError.reservedInput i) else Except.ok ()) := by
    simp only [validateSchema, bind, Except.bind, hdeps, houts]
  constructor
  · intro hall
    rw [hbase]
    exact (reservedInputsForM (topLevelInputs data)).1 hall
  · intro hex
    obtain ⟨j, hj1, hj2, hj3⟩ := (reservedInputsForM (topLevelInputs data)).2 hex
    exact ⟨j, hbase ▸ hj1, hj2, hj3⟩

/-- Witness for C6 at a concrete input: a single-chain document declaring
input "chains" is rejected with the reserved-input error. -/
theorem validateSchema_reserved_amended_witness :
    ((∀ i ∈ topLevelInputs docSingleReserved, i ≠ "chains" ∧ i ≠ "outputs") →
      validateSchema docSingleReserved (some {}) = .ok ()) ∧
    ((∃ i ∈ topLevelInputs docSingleReserved, i = "chains" ∨ i = "outputs") →
      ∃ j, validateSchema docSingleReserved (some {})
          = .error (.reservedInput j) ∧
        j ∈ topLevelInputs docSingleReserved ∧
        (j = "chains" ∨ j = "outputs")) :=
  validateSchema_reserved_amended docSingleReserved {}
    [(DEFAULT_CHAIN_ID,
      { dependsOn := some [],
        chain := { messages := [.user "x"], inputs := some ["chains"] } })]
    rfl rfl

/-- `resolveConfig` depends on its reply and defaults only through the
three field selectors. -/
theorem resolveConfig_congr (r1 r2 : OutputSpec) (d1 d2 : Option YaplDefaults)
    (P : List Provider) (R : List Tool)
    (hm : selectModel r1.model d1 = selectModel r2.model d2)
    (hp : selectProviderName r1.provider d1 = selectProviderName r2.provider d2)
    (ht : selectToolNames r1.tools d1 = selectToolNames r2.tools d2) :
    resolveConfig r1 d1 P R = resolveConfig r2 d2 P R := by
  simp only [resolveConfig, hm, hp, ht]

/-- Feeding the defaults' own provider through the output-level slot
changes nothing. -/
theorem selectProviderName_default_self (D : YaplDefaults) :
    selectProviderName D.provider (some D) = D.provider := by
  simp only [selectProviderName, strOr, Option.bind]
  split <;> rfl

/-- Feeding the defaults' own model through the output-level slot changes
nothing. -/
theorem selectModel_default_self (D : YaplDefaults) :
    selectModel D.model (some D) = D.model := by
  cases hdm : D.model with
  | none => simp [selectModel, Option.bind, hdm]
  | some dm =>
      simp only [selectModel, Option.bind, hdm]
      split <;> simp [hdm]

/-- The tool lookup traversal fails naming an unregistered requested
tool whenever one exists (loop-generalized form). -/
theorem mapMLoop_toolNotFound (reg : List Tool) :
    ∀ (names : List String) (acc : List Tool),
      (∃ nm ∈ names, reg.find? (fun t => t.name = nm) = none) →
      ∃ nm, List.mapM.loop (fun nm =>
          match reg.find? (fun t => t.name = nm) with
          | some t => Except.ok t
          | none => Except.error (YaplError.toolNotFound nm)) names acc
        = .error (YaplError.toolNotFound nm) ∧ nm ∈ names ∧
        reg.find? (fun t => t.name = nm) = none := by
  intro names
  induction names with
  | nil => rintro acc ⟨nm, hnm, _⟩; cases hnm
  | cons hd tl ih =>
      rintro acc ⟨nm, hnm, hfind⟩
      cases hhd : reg.find? (fun t => t.name = hd) with
      | none =>
          refine ⟨hd, ?_, List.mem_cons_self hd tl, hhd⟩
          simp [List.mapM.loop, hhd, bind, Except.bind]
      | some t =>
          have hmem : nm ∈ tl := by
            rcases List.mem_cons.mp hnm with rfl | h
            · rw [hhd] at hfind; exact Option.noConfusion hfind
            · exact h
          obtain ⟨nm2, h1, h2, h3⟩ := ih (t :: acc) ⟨nm, hmem, hfind⟩
          refine ⟨nm2, ?_, List.mem_cons_of_mem hd h2, h3⟩
          simp [List.mapM.loop, hhd, bind, Except.bind, h1]

/-- The tool lookup traversal fails naming an unregistered requested
tool whenever one exists. -/
theorem mapM_toolNotFound (reg : List Tool) :
    ∀ (names : List String),
      (∃ nm ∈ names, reg.find? (fun t => t.name = nm) = none) →
      ∃ nm, names.mapM (fun nm =>
          match reg.find? (fun t => t.name = nm) with
          | some t => Except.ok t
          | none => Except.error (YaplError.toolNotFound nm))
        = .error (YaplError.toolNotFound nm) ∧ nm ∈ names ∧
        reg.find? (fun t => t.name = nm) = none := by
  intro names h
  simpa [List.mapM] using mapMLoop_toolNotFound reg names [] h

/-- C3 (amended): per field independently, an output-level value that is
present and non-empty makes the defaults irrelevant (and an empty
output-level tool list counts as present: it resolves to no tools and
the default tool list is irrelevant); a null/undefined output-level
provider — or an empty-string provider —, a null/undefined model — or a
model with empty name —, and a null/undefined tools value fall back to
the defaults' value; resolution errors: no model at any level raises
no-model, no truthy provider name at any level raises no-provider, a
resolvable provider name absent from the registry raises an error naming
the provider, and an unregistered requested tool name raises an error
naming that tool. -/
theorem resolveConfig_precedence_amended (D : YaplDefaults)
    (providers : List Provider) (reg : List Tool) :
    (∀ (m : Model) (p : String) (ts : List String) (fmt : Option OutputFormat),
      m.name ≠ "" → p ≠ "" →
      resolveConfig ⟨some p, some m, some ts, fmt⟩ (some D) providers reg =
      resolveConfig ⟨some p, some m, some ts, fmt⟩ none providers reg) ∧
    (∀ reply : OutputSpec,
      resolveConfig { reply with provider := none } (some D) providers reg =
      resolveConfig { reply with provider := D.provider } (some D) providers reg) ∧
    (∀ reply : OutputSpec,
      resolveConfig { reply with provider := some "" } (some D) providers reg =
      resolveConfig { reply with provider := none } (some D) providers reg) ∧
    (∀ reply : OutputSpec,
      resolveConfig { reply with model := none } (some D) providers reg =
      resolveConfig { reply with model := D.model } (some D) providers reg) ∧
    (∀ (reply : OutputSpec) (pm : Option Json),
      resolveConfig { reply with model := some { name := "", params := pm } }
        (some D) providers reg =
      resolveConfig { reply with model := none } (some D) providers reg) ∧
    (∀ reply : OutputSpec,
      resolveConfig { reply with tools := none } (some D) providers reg =
      resolveConfig { reply with tools := D.tools } (some D) providers reg) ∧
    (∀ (reply : OutputSpec) (D' : YaplDefaults),
      D.provider = D'.provider → D.model = D'.model →
      resolveConfig { reply with tools := some [] } (some D) providers reg =
      resolveConfig { reply with tools := some [] } (some D') providers reg) ∧
    (∀ reply : OutputSpec, selectModel reply.model (some D) = none →
      resolveConfig reply (some D) providers reg = .error .noModelConfigured) ∧
    (∀ (reply : OutputSpec) (m0 : Model),
      selectModel reply.model (some D) = some m0 →
      strTruthy (selectProviderName reply.provider (some D)) = false →
      resolveConfig reply (some D) providers reg = .error .noProviderConfigured) ∧
    (∀ (reply : OutputSpec) (m0 : Model) (pn : String),
      selectModel reply.model (some D) = some m0 →
      selectProviderName reply.provider (some D) = some pn → pn ≠ "" →
      providers.find? (fun q => q.name = pn) = none →
      resolveConfig reply (some D) providers reg = .error (.providerNotFound pn)) ∧
    (∀ (reply : OutputSpec) (m0 : Model) (pn : String) (pr : Provider),
      selectModel reply.model (some D) = some m0 →
      selectProviderName reply.provider (some D) = some pn → pn ≠ "" →
      providers.find? (fun q => q.name = pn) = some pr →
      (∃ nm ∈ selectToolNames reply.tools (some D),
        reg.find? (fun t => t.name = nm) = none) →
      ∃ nm, resolveConfig reply (some D) providers reg =
          .error (.toolNotFound nm) ∧
        nm ∈ selectToolNames reply.tools (some D) ∧
        reg.find? (fun t => t.name = nm) = none) := by
  refine ⟨?_, ?_, ?_, ?_, ?_, ?_, ?_, ?_, ?_, ?_, ?_⟩
  · intro m p ts fmt hm hp
    exact resolveConfig_congr _ _ _ _ _ _
      (by simp [selectModel, hm]) (by simp [selectProviderName, strOr, strTruthy, hp]) rfl
  · intro reply
    exact resolveConfig_congr _ _ _ _ _ _ rfl
      (by simp [selectProviderName, strOr, strTruthy, Option.bind,
            selectProviderName_default_self D]) rfl
  · intro reply
    exact resolveConfig_congr _ _ _ _ _ _ rfl
      (by simp [selectProviderName, strOr, strTruthy]) rfl
  · intro reply
    refine resolveConfig_congr _ _ _ _ _ _ ?_ rfl rfl
    show selectModel none (some D) = selectModel D.model (some D)
    rw [selectModel_default_self D]
    simp [selectModel, Option.bind]
  · intro reply pm
    exact resolveConfig_congr _ _ _ _ _ _
      (by simp [selectModel, Option.bind]) rfl rfl
  · intro reply
    refine resolveConfig_congr _ _ _ _ _ _ rfl rfl ?_
    cases ht : D.tools <;> simp [selectToolNames, Option.bind, ht]
  · intro reply D' hp hm
    exact resolveConfig_congr _ _ _ _ _ _
      (by simp [selectModel, Option.bind, hm]) (by simp [selectProviderName, strOr, Option.bind, hp]) rfl
  · intro reply h
    simp only [resolveConfig, h]
  · intro reply m0 hm hp
    simp only [resolveConfig, hm, hp, Bool.false_eq_true, if_false]
  · intro reply m0 pn hm hp hpn hfind
    have hst : strTruthy (some pn) = true := by simp [strTruthy, hpn]
    simp only [resolveConfig, hm, hp, hst, if_true, hfind]
  · intro reply m0 pn pr hm hp hpn hfind hex
    obtain ⟨nm, h1, h2, h3⟩ := mapM_toolNotFound reg _ hex
    have hst : strTruthy (some pn) = true := by simp [strTruthy, hpn]
    refine ⟨nm, ?_, h2, h3⟩
    simp only [resolveConfig, hm, hp, hst, if_true, hfind, bind, Except.bind, h1]

/-- Witness for C3 at a concrete input: with all output-level fields
present and non-empty (tools being the empty list), replacing the
defaults by none does not change the resolution. -/
theorem resolveConfig_precedence_amended_witness :
    resolveConfig ⟨some "p", some { name := "m" }, some [], none⟩
      (some ⟨some "q", some { name := "dm" }, some ["t"]⟩) [provP] [sniffTool] =
    resolveConfig ⟨some "p", some { name := "m" }, some [], none⟩
      none [provP] [sniffTool] :=
  (resolveConfig_precedence_amended ⟨some "q", some { name := "dm" }, some ["t"]⟩
    [provP] [sniffTool]).1 { name := "m" } "p" [] none (by decide) (by decide)

theorem dfs_succ_eq (g : DepMap) (fuel : Nat) (chain : String)
    (path visited : List String) :
    dfs g (fuel + 1) chain path visited =
    (if chain ∈ path then .ok (true, visited)
     else if chain ∈ visited then .ok (false, visited)
     else
       match lookupDeps g chain with
       | none => .error (.undeclaredDependency chain path.getLast?)
       | some deps =>
           dfsFold g fuel (path ++ [chain]) deps
             (.ok (false, visited ++ [chain]))) := rfl

theorem dfsFold_nil (g : DepMap) (fuel : Nat) (p : List String) (acc) :
    dfsFold g fuel p [] acc = acc := rfl

theorem dfsFold_cons_false (g : DepMap) (fuel : Nat) (p : List String)
    (d : String) (ds : List String) (v : List String) :
    dfsFold g fuel p (d :: ds) (.ok (false, v)) =
    dfsFold g fuel p ds (dfs g fuel d p v) := rfl

theorem dfsFold_error (g : DepMap) (fuel : Nat) (p : List String)
    (ds : List String) (e : YaplError) :
    dfsFold g fuel p ds (.error e) = .error e := by
  induction ds with
  | nil => rfl
  | cons d ds ih => exact ih

theorem dfsFold_true (g : DepMap) (fuel : Nat) (p : List String)
    (ds : List String) (v : List String) :
    dfsFold g fuel p ds (.ok (true, v)) = .ok (true, v) := by
  induction ds with
  | nil => rfl
  | cons d ds ih => exact ih

theorem filter_length_le_of_imp :
    ∀ (l : List String) (p q : String → Bool),
      (∀ x ∈ l, p x = true → q x = true) →
      (l.filter p).length ≤ (l.filter q).length := by
  intro l
  induction l with
  | nil => intro p q _; exact Nat.le_refl _
  | cons hd tl ih =>
      intro p q himp
      have htl := ih p q (fun x hx => himp x (List.mem_cons_of_mem hd hx))
      cases hp : p hd with
      | true =>
          have hq := himp hd (List.mem_cons_self hd tl) hp
          simp [List.filter, hp, hq]
          omega
      | false =>
          cases hq : q hd with
          | true => simp [List.filter, hp, hq]; omega
          | false => simp [List.filter, hp, hq]; omega

theorem filter_length_lt_of_witness :
    ∀ (l : List String) (p q : String → Bool),
      (∀ x ∈ l, p x = true → q x = true) →
      (∃ x ∈ l, p x = false ∧ q x = true) →
      (l.filter p).length < (l.filter q).length := by
  intro l
  induction l with
  | nil => rintro p q _ ⟨x, hx, _⟩; cases hx
  | cons hd tl ih =>
      rintro p q himp ⟨x, hx, hpx, hqx⟩
      have himp' := fun y hy => himp y (List.mem_cons_of_mem hd hy)
      rcases List.mem_cons.mp hx with rfl | hx'
      · have htl := filter_length_le_of_imp tl p q himp'
        simp [List.filter, hpx, hqx]
        omega
      · have htl := ih p q himp' ⟨x, hx', hpx, hqx⟩
        cases hp : p hd with
        | true =>
            have hq := himp hd (List.mem_cons_self hd tl) hp
            simp [List.filter, hp, hq]
            omega
        | false =>
            cases hq : q hd with
            | true => simp [List.filter, hp, hq]; omega
            | false => simp [List.filter, hp, hq]; omega

theorem remCount_mono (g : DepMap) (v1 v2 : List String)
    (h : ∀ x ∈ v1, x ∈ v2) : remCount g v2 ≤ remCount g v1 := by
  apply filter_length_le_of_imp
  intro x _ hx
  simp only [decide_eq_true_eq] at hx ⊢
  intro hx1
  exact hx (h x hx1)

theorem remCount_lt (g : DepMap) (visited : List String) (chain : String)
    (hmem : chain ∈ allNames g) (hnv : chain ∉ visited) :
    remCount g (visited ++ [chain]) < remCount g visited := by
  apply filter_length_lt_of_witness
  · intro x _ hx
    simp only [decide_eq_true_eq, List.mem_append] at hx ⊢
    intro hx1
    exact hx (Or.inl hx1)
  · refine ⟨chain, List.mem_dedup.mpr hmem, ?_, ?_⟩
    · simp
    · simpa using hnv

theorem lookupDeps_mem_keys (g : DepMap) (a : String) (ds : List String)
    (h : lookupDeps g a = some ds) : a ∈ keys g := by
  simp only [lookupDeps, Option.map_eq_some'] at h
  obtain ⟨e, he, hds⟩ := h
  have hmem := List.mem_of_find?_eq_some he
  have hpe := List.find?_some he
  simp only [decide_eq_true_eq] at hpe
  exact hpe ▸ List.mem_map_of_mem (fun e => e.1) hmem

theorem keys_mem_allNames (g : DepMap) (a : String) (h : a ∈ keys g) :
    a ∈ allNames g := by
  exact List.mem_append_left _ h

theorem dep_mem_allNames (g : DepMap) (a b : String) (ds : List String)
    (h : lookupDeps g a = some ds) (hb : b ∈ ds) : b ∈ allNames g := by
  simp only [lookupDeps, Option.map_eq_some'] at h
  obtain ⟨e, he, hds⟩ := h
  have hmem := List.mem_of_find?_eq_some he
  apply List.mem_append_right
  rw [List.mem_flatten]
  exact ⟨ds, by rw [← hds]; exact List.mem_map_of_mem (fun e => e.2) hmem, hb⟩

theorem lookupDeps_edge (g : DepMap) (a b : String) (ds : List String)
    (h : lookupDeps g a = some ds) (hb : b ∈ ds) : depEdge g a b :=
  ⟨ds, h, hb⟩

theorem keys_lookupDeps (g : DepMap) (a : String) (h : a ∈ keys g) :
    ∃ ds, lookupDeps g a = some ds := by
  simp only [keys, List.mem_map] at h
  obtain ⟨e, he, rfl⟩ := h
  have : (g.find? (fun x => x.1 = e.1)).isSome := by
    rw [List.find?_isSome]
    exact ⟨e, he, by simp⟩
  obtain ⟨e', he'⟩ := Option.isSome_iff_exists.mp this
  exact ⟨e'.2, by simp [lookupDeps, he']⟩

theorem dfs_mono (g : DepMap) :
    ∀ (fuel : Nat) (chain : String) (path visited : List String)
      (b : Bool) (v2 : List String),
      dfs g fuel chain path visited = .ok (b, v2) → ∀ x ∈ visited, x ∈ v2 := by
  intro fuel
  induction fuel with
  | zero => intro _ _ _ _ _ h; simp [dfs] at h
  | succ fuel ih =>
      intro chain path visited b v2 h x hx
      rw [dfs_succ_eq] at h
      by_cases h1 : chain ∈ path
      · rw [if_pos h1] at h
        obtain ⟨_, h3⟩ := Prod.mk.injEq .. ▸ Except.ok.inj h
        exact h3 ▸ hx
      · rw [if_neg h1] at h
        by_cases h2 : chain ∈ visited
        · rw [if_pos h2] at h
          obtain ⟨_, h3⟩ := Prod.mk.injEq .. ▸ Except.ok.inj h
          exact h3 ▸ hx
        · rw [if_neg h2] at h
          cases hlook : lookupDeps g chain with
          | none => rw [hlook] at h; exact absurd h (by simp)
          | some deps =>
              rw [hlook] at h
              have hfold : ∀ (ds : List String) (v0 : List String),
                  dfsFold g fuel (path ++ [chain]) ds (.ok (false, v0)) = .ok (b, v2) →
                  ∀ y ∈ v0, y ∈ v2 := by
                intro ds
                induction ds with
                | nil =>
                    intro v0 h0 y hy
                    rw [dfsFold_nil] at h0
                    obtain ⟨_, h3⟩ := Prod.mk.injEq .. ▸ Except.ok.inj h0
                    exact h3 ▸ hy
                | cons d ds ihd =>
                    intro v0 h0 y hy
                    rw [dfsFold_cons_false] at h0
                    cases hd : dfs g fuel d (path ++ [chain]) v0 with
                    | error e =>
                        rw [hd, dfsFold_error] at h0
                        exact absurd h0 (by simp)
                    | ok pr =>
                        obtain ⟨b1, v1⟩ := pr
                        rw [hd] at h0
                        cases b1 with
                        | true =>
                            rw [dfsFold_true] at h0
                            obtain ⟨_, h3⟩ := Prod.mk.injEq .. ▸ Except.ok.inj h0
                            exact h3 ▸ ih d _ v0 true v1 hd y hy
                        | false =>
                            exact ihd v1 h0 y (ih d _ v0 false v1 hd y hy)
              exact hfold deps (visited ++ [chain]) h x (List.mem_append_left _ hx)

theorem dfs_total (g : DepMap) (hdecl : fullyDeclared g) :
    ∀ (fuel : Nat) (chain : String) (path visited : List String),
      remCount g visited < fuel →
      (chain ∈ keys g ∨ chain ∈ visited ∨ chain ∈ path) →
      ∃ b v2, dfs g fuel chain path visited = .ok (b, v2) := by
  intro fuel
  induction fuel with
  | zero => intro _ _ _ hflt _; omega
  | succ fuel ih =>
      intro chain path visited hflt hmem
      rw [dfs_succ_eq]
      by_cases h1 : chain ∈ path
      · rw [if_pos h1]; exact ⟨true, visited, rfl⟩
      · rw [if_neg h1]
        by_cases h2 : chain ∈ visited
        · rw [if_pos h2]; exact ⟨false, visited, rfl⟩
        · rw [if_neg h2]
          have hkey : chain ∈ keys g := by
            rcases hmem with h | h | h
            · exact h
            · exact absurd h h2
            · exact absurd h h1
          obtain ⟨deps, hlook⟩ := keys_lookupDeps g chain hkey
          rw [hlook]
          have hdeps_keys : ∀ d ∈ deps, d ∈ keys g := by
            intro d hd
            have hedge := lookupDeps_edge g chain d deps hlook hd
            have := hdecl chain d hedge
            obtain ⟨ds', hds'⟩ := Option.isSome_iff_exists.mp this
            exact lookupDeps_mem_keys g d ds' hds'
          have hflt' : remCount g (visited ++ [chain]) < fuel := by
            have hlt := remCount_lt g visited chain
              (keys_mem_allNames g chain hkey) h2
            omega
          have hfold : ∀ (ds : List String), (∀ d ∈ ds, d ∈ keys g) →
              ∀ (v0 : List String), remCount g v0 < fuel →
              ∃ b v2, dfsFold g fuel (path ++ [chain]) ds (.ok (false, v0)) =
                .ok (b, v2) ∧ ∀ x ∈ v0, x ∈ v2 := by
            intro ds
            induction ds with
            | nil =>
                intro _ v0 _
                exact ⟨false, v0, dfsFold_nil .., fun x hx => hx⟩
            | cons d ds ihd =>
                intro hdk v0 hv0
                obtain ⟨b1, v1, hd⟩ := ih d (path ++ [chain]) v0 hv0
                  (Or.inl (hdk d (List.mem_cons_self d ds)))
                have hmono := dfs_mono g fuel d (path ++ [chain]) v0 b1 v1 hd
                rw [dfsFold_cons_false, hd]
                cases b1 with
                | true => exact ⟨true, v1, dfsFold_true .., hmono⟩
                | false =>
                    have hv1 : remCount g v1 < fuel :=
                      Nat.lt_of_le_of_lt (remCount_mono g v0 v1 hmono) hv0
                    obtain ⟨b2, v2, heq, hmono2⟩ := ihd
                      (fun x hx => hdk x (List.mem_cons_of_mem d hx)) v1 hv1
                    exact ⟨b2, v2, heq, fun x hx => hmono2 x (hmono x hx)⟩
          obtain ⟨b, v2, heq, _⟩ := hfold deps hdeps_keys (visited ++ [chain]) hflt'
          exact ⟨b, v2, heq⟩

theorem dfsInv_push (g : DepMap) (path visited : List String) (chain : String)
    (hInv : dfsInv g path visited) (hnv : chain ∉ visited) :
    dfsInv g (path ++ [chain]) (visited ++ [chain]) := by
  intro v hv hvp
  have hvc : v ≠ chain := by
    intro rfl2
    subst rfl2
    exact hvp (List.mem_append_right path (List.mem_singleton_self v))
  have hv' : v ∈ visited := by
    rcases List.mem_append.mp hv with h | h
    · exact h
    · exact absurd (List.mem_singleton.mp h) hvc
  have hvnp : v ∉ path := fun h => hvp (List.mem_append_left _ h)
  obtain ⟨htgt, hnc⟩ := hInv v hv' hvnp
  refine ⟨?_, hnc⟩
  intro w hw
  obtain ⟨hw1, hw2⟩ := htgt w hw
  refine ⟨List.mem_append_left _ hw1, ?_⟩
  intro hwp
  rcases List.mem_append.mp hwp with h | h
  · exact hw2 h
  · exact hnv (List.mem_singleton.mp h ▸ hw1)

theorem dfsInv_pop (g : DepMap) (path v2 : List String) (chain : String)
    (deps : List String)
    (hlook : lookupDeps g chain = some deps)
    (hI2 : dfsInv g (path ++ [chain]) v2)
    (hdeps : ∀ d ∈ deps, d ∈ v2 ∧ d ∉ path ++ [chain])
    (hcv : chain ∈ v2) :
    dfsInv g path v2 := by
  have hdepsNC : ∀ d ∈ deps, noCycleFrom g d := by
    intro d hd
    obtain ⟨hd1, hd2⟩ := hdeps d hd
    exact (hI2 d hd1 hd2).2
  intro v hv hvp
  by_cases hvc : v = chain
  · subst hvc
    constructor
    · intro w hw
      obtain ⟨ds', hlook', hw'⟩ := hw
      rw [hlook] at hlook'
      obtain rfl := Option.some.inj hlook'
      obtain ⟨h1, h2⟩ := hdeps w hw'
      exact ⟨h1, fun hwp => h2 (List.mem_append_left _ hwp)⟩
    · rintro ⟨c, hrt, hcyc⟩
      rcases Relation.ReflTransGen.cases_head hrt with rfl | ⟨d, hed, hrt'⟩
      · obtain ⟨d, hed, hrt'⟩ := Relation.TransGen.head'_iff.mp hcyc
        obtain ⟨ds', hlook', hd'⟩ := hed
        rw [hlook] at hlook'
        obtain rfl := Option.some.inj hlook'
        exact hdepsNC d hd' ⟨v, hrt', hcyc⟩
      · obtain ⟨ds', hlook', hd'⟩ := hed
        rw [hlook] at hlook'
        obtain rfl := Option.some.inj hlook'
        exact hdepsNC d hd' ⟨c, hrt', hcyc⟩
  · have hvp' : v ∉ path ++ [chain] := by
      intro h
      rcases List.mem_append.mp h with h | h
      · exact hvp h
      · exact hvc (List.mem_singleton.mp h)
    obtain ⟨htgt, hnc⟩ := hI2 v hv hvp'
    refine ⟨?_, hnc⟩
    intro w hw
    obtain ⟨h1, h2⟩ := htgt w hw
    exact ⟨h1, fun hwp => h2 (List.mem_append_left _ hwp)⟩

theorem dfs_sound (g : DepMap) :
    ∀ (fuel : Nat) (chain : String) (path visited v2 : List String),
      dfsInv g path visited →
      dfs g fuel chain path visited = .ok (false, v2) →
      dfsInv g path v2 ∧ (∀ x ∈ visited, x ∈ v2) ∧ chain ∈ v2 ∧ chain ∉ path := by
  intro fuel
  induction fuel with
  | zero => intro _ _ _ _ _ h; simp [dfs] at h
  | succ fuel ih =>
      intro chain path visited v2 hInv h
      rw [dfs_succ_eq] at h
      by_cases h1 : chain ∈ path
      · rw [if_pos h1] at h
        obtain ⟨h2, _⟩ := Prod.mk.injEq .. ▸ Except.ok.inj h
        exact absurd h2.symm (by simp)
      · rw [if_neg h1] at h
        by_cases h2 : chain ∈ visited
        · rw [if_pos h2] at h
          obtain ⟨_, h3⟩ := Prod.mk.injEq .. ▸ Except.ok.inj h
          exact ⟨h3 ▸ hInv, fun x hx => h3 ▸ hx, h3 ▸ h2, h1⟩
        · rw [if_neg h2] at h
          cases hlook : lookupDeps g chain with
          | none => rw [hlook] at h; exact absurd h (by simp)
          | some deps =>
              rw [hlook] at h
              have hInv' : dfsInv g (path ++ [chain]) (visited ++ [chain]) :=
                dfsInv_push g path visited chain hInv h2
              have hfold : ∀ (ds : List String) (v0 : List String),
                  dfsInv g (path ++ [chain]) v0 →
                  dfsFold g fuel (path ++ [chain]) ds (.ok (false, v0)) =
                    .ok (false, v2) →
                  dfsInv g (path ++ [chain]) v2 ∧ (∀ x ∈ v0, x ∈ v2) ∧
                    ∀ d ∈ ds, d ∈ v2 ∧ d ∉ path ++ [chain] := by
                intro ds
                induction ds with
                | nil =>
                    intro v0 hI0 h0
                    rw [dfsFold_nil] at h0
                    obtain ⟨_, h3⟩ := Prod.mk.injEq .. ▸ Except.ok.inj h0
                    subst h3
                    exact ⟨hI0, fun x hx => hx, fun d hd => absurd hd (List.not_mem_nil d)⟩
                | cons d ds ihd =>
                    intro v0 hI0 h0
                    rw [dfsFold_cons_false] at h0
                    cases hd : dfs g fuel d (path ++ [chain]) v0 with
                    | error e =>
                        rw [hd, dfsFold_error] at h0
                        exact absurd h0 (by simp)
                    | ok pr =>
                        obtain ⟨b1, v1⟩ := pr
                        rw [hd] at h0
                        cases b1 with
                        | true =>
                            rw [dfsFold_true] at h0
                            obtain ⟨h3, _⟩ := Prod.mk.injEq .. ▸ Except.ok.inj h0
                            exact absurd h3.symm (by simp)
                        | false =>
                            obtain ⟨hI1, hm1, hdv1, hdp1⟩ := ih d _ v0 v1 hI0 hd
                            obtain ⟨hI2, hm2, hrest⟩ := ihd v1 hI1 h0
                            refine ⟨hI2, fun x hx => hm2 x (hm1 x hx), ?_⟩
                            intro d' hd'
                            rcases List.mem_cons.mp hd' with rfl | hd''
                            · exact ⟨hm2 d' hdv1, hdp1⟩
                            · exact hrest d' hd''
              obtain ⟨hI2, hm2, hdeps2⟩ := hfold deps (visited ++ [chain]) hInv' h
              have hcv : chain ∈ v2 :=
                hm2 chain (List.mem_append_right _ (List.mem_singleton_self chain))
              refine ⟨dfsInv_pop g path v2 chain deps hlook hI2 hdeps2 hcv,
                fun x hx => hm2 x (List.mem_append_left _ hx), hcv, h1⟩

theorem chain_transGen {α : Type} (r : α → α → Prop) :
    ∀ (l : List α) (a b : α), List.Chain r a (l ++ [b]) →
      Relation.TransGen r a b := by
  intro l
  induction l with
  | nil => intro a b h; exact .single (List.chain_singleton.mp h)
  | cons c l ih =>
      intro a b h
      rw [List.cons_append, List.chain_cons] at h
      exact Relation.TransGen.head h.1 (ih c b h.2)

theorem chain_snoc {α : Type} (r : α → α → Prop) :
    ∀ (l : List α) (a b c : α), List.Chain r a (l ++ [b]) → r b c →
      List.Chain r a ((l ++ [b]) ++ [c]) := by
  intro l
  induction l with
  | nil =>
      intro a b c h hbc
      have hab := List.chain_singleton.mp h
      show List.Chain r a [b, c]
      exact List.Chain.cons hab (List.Chain.cons hbc List.Chain.nil)
  | cons d l ih =>
      intro a b c h hbc
      rw [List.cons_append, List.chain_cons] at h
      show List.Chain r a (d :: ((l ++ [b]) ++ [c]))
      rw [List.chain_cons]
      exact ⟨h.1, ih d b c h.2 hbc⟩

theorem edgePath_push (g : DepMap) (path : List String) (chain d : String)
    (hep : edgePath g path chain) (hed : depEdge g chain d) :
    edgePath g (path ++ [chain]) d := by
  cases path with
  | nil =>
      show List.Chain (depEdge g) chain ([] ++ [d])
      exact List.chain_singleton.mpr hed
  | cons p ps =>
      show List.Chain (depEdge g) p ((ps ++ [chain]) ++ [d])
      exact chain_snoc (depEdge g) ps p chain d hep hed

theorem edgePath_cycle (g : DepMap) (path : List String) (chain : String)
    (hep : edgePath g path chain) (hmem : chain ∈ path) :
    Relation.TransGen (depEdge g) chain chain := by
  cases path with
  | nil => cases hmem
  | cons p ps =>
      rcases List.mem_cons.mp hmem with rfl | hps
      · exact chain_transGen (depEdge g) ps chain chain hep
      · obtain ⟨l1, l2, rfl⟩ := List.mem_iff_append.mp hps
        have h2 : List.Chain (depEdge g) p (l1 ++ chain :: (l2 ++ [chain])) := by
          have h0 : List.Chain (depEdge g) p ((l1 ++ chain :: l2) ++ [chain]) := hep
          rwa [List.append_assoc, List.cons_append] at h0
        exact chain_transGen (depEdge g) l2 chain chain
          (List.chain_split.mp h2).2

theorem dfs_noTrue (g : DepMap) (hnc : ¬ hasCycle g) :
    ∀ (fuel : Nat) (chain : String) (path visited v2 : List String),
      edgePath g path chain →
      dfs g fuel chain path visited ≠ .ok (true, v2) := by
  intro fuel
  induction fuel with
  | zero => intro _ _ _ _ _ h; simp [dfs] at h
  | succ fuel ih =>
      intro chain path visited v2 hep h
      rw [dfs_succ_eq] at h
      by_cases h1 : chain ∈ path
      · exact hnc ⟨chain, edgePath_cycle g path chain hep h1⟩
      · rw [if_neg h1] at h
        by_cases h2 : chain ∈ visited
        · rw [if_pos h2] at h
          obtain ⟨h3, _⟩ := Prod.mk.injEq .. ▸ Except.ok.inj h
          exact absurd h3 (by simp)
        · rw [if_neg h2] at h
          cases hlook : lookupDeps g chain with
          | none => rw [hlook] at h; exact absurd h (by simp)
          | some deps =>
              rw [hlook] at h
              have hfold : ∀ (ds : List String) (v0 : List String),
                  (∀ d ∈ ds, depEdge g chain d) →
                  dfsFold g fuel (path ++ [chain]) ds (.ok (false, v0)) ≠
                    .ok (true, v2) := by
                intro ds
                induction ds with
                | nil =>
                    intro v0 _ h0
                    rw [dfsFold_nil] at h0
                    obtain ⟨h3, _⟩ := Prod.mk.injEq .. ▸ Except.ok.inj h0
                    exact absurd h3 (by simp)
                | cons d ds ihd =>
                    intro v0 hde h0
                    rw [dfsFold_cons_false] at h0
                    cases hd : dfs g fuel d (path ++ [chain]) v0 with
                    | error e =>
                        rw [hd, dfsFold_error] at h0
                        exact absurd h0 (by simp)
                    | ok pr =>
                        obtain ⟨b1, v1⟩ := pr
                        rw [hd] at h0
                        cases b1 with
                        | true =>
                            exact ih d (path ++ [chain]) v0 v1
                              (edgePath_push g path chain d hep
                                (hde d (List.mem_cons_self d ds))) hd
                        | false =>
                            exact ihd v1
                              (fun x hx => hde x (List.mem_cons_of_mem d hx)) h0
              exact hfold deps (visited ++ [chain])
                (fun d hd => lookupDeps_edge g chain d deps hlook hd) h

theorem validate_eq (g : DepMap) :
    validateChainDependencies g =
      (g.foldl (validateStep g) (.ok [])).map (fun _ => ()) := rfl

theorem validateFold_error (g : DepMap) :
    ∀ (entries : List (String × List String)) (e : YaplError),
      entries.foldl (validateStep g) (.error e) = .error e := by
  intro entries
  induction entries with
  | nil => intro e; rfl
  | cons x xs ih => intro e; exact ih e

theorem remCount_nil_lt_dfsFuel (g : DepMap) : remCount g [] < dfsFuel g := by
  have h1 : ((allNames g).dedup.filter (fun x => x ∉ ([] : List String))).length ≤
      (allNames g).dedup.length := List.length_filter_le _ _
  have h2 : (allNames g).dedup.length ≤ (allNames g).length :=
    (List.dedup_sublist (allNames g)).length_le
  simp only [remCount, dfsFuel]
  omega

theorem validateFold_ok_of_acyclic (g : DepMap) (hdecl : fullyDeclared g)
    (hnc : ¬ hasCycle g) :
    ∀ (entries : List (String × List String)) (visited : List String),
      (∀ e ∈ entries, e.1 ∈ keys g) → remCount g visited < dfsFuel g →
      ∃ vf, entries.foldl (validateStep g) (.ok visited) = .ok vf := by
  intro entries
  induction entries with
  | nil => intro visited _ _; exact ⟨visited, rfl⟩
  | cons e es ih =>
      intro visited hk hr
      obtain ⟨b, v2, hdfs⟩ := dfs_total g hdecl (dfsFuel g) e.1 [] visited hr
        (Or.inl (hk e (List.mem_cons_self e es)))
      cases b with
      | true =>
          exact absurd hdfs (dfs_noTrue g hnc (dfsFuel g) e.1 [] visited v2 trivial)
      | false =>
          have hmono := dfs_mono g (dfsFuel g) e.1 [] visited false v2 hdfs
          have hr2 : remCount g v2 < dfsFuel g :=
            Nat.lt_of_le_of_lt (remCount_mono g visited v2 hmono) hr
          obtain ⟨vf, hvf⟩ := ih v2
            (fun x hx => hk x (List.mem_cons_of_mem e hx)) hr2
          refine ⟨vf, ?_⟩
          show es.foldl (validateStep g) (validateStep g (.ok visited) e) = .ok vf
          simp only [validateStep, hdfs]
          exact hvf

theorem validateFold_shape (g : DepMap) (hdecl : fullyDeclared g) :
    ∀ (entries : List (String × List String)) (visited : List String),
      (∀ e ∈ entries, e.1 ∈ keys g) → remCount g visited < dfsFuel g →
      (∃ vf, entries.foldl (validateStep g) (.ok visited) = .ok vf) ∨
      (∃ c, entries.foldl (validateStep g) (.ok visited) =
          .error (.circularDependency c) ∧ c ∈ keys g) := by
  intro entries
  induction entries with
  | nil => intro visited _ _; exact Or.inl ⟨visited, rfl⟩
  | cons e es ih =>
      intro visited hk hr
      obtain ⟨b, v2, hdfs⟩ := dfs_total g hdecl (dfsFuel g) e.1 [] visited hr
        (Or.inl (hk e (List.mem_cons_self e es)))
      cases b with
      | true =>
          right
          refine ⟨e.1, ?_, hk e (List.mem_cons_self e es)⟩
          show es.foldl (validateStep g) (validateStep g (.ok visited) e) = _
          simp only [validateStep, hdfs]
          exact validateFold_error g es _
      | false =>
          have hmono := dfs_mono g (dfsFuel g) e.1 [] visited false v2 hdfs
          have hr2 : remCount g v2 < dfsFuel g :=
            Nat.lt_of_le_of_lt (remCount_mono g visited v2 hmono) hr
          have hstep : es.foldl (validateStep g) (validateStep g (.ok visited) e) =
              es.foldl (validateStep g) (.ok v2) := by
            simp only [validateStep, hdfs]
          rcases ih v2 (fun x hx => hk x (List.mem_cons_of_mem e hx)) hr2 with
            ⟨vf, hvf⟩ | ⟨c, hc1, hc2⟩
          · exact Or.inl ⟨vf, by rw [List.foldl_cons, hstep]; exact hvf⟩
          · exact Or.inr ⟨c, by rw [List.foldl_cons, hstep]; exact hc1, hc2⟩

theorem validateFold_inv (g : DepMap) :
    ∀ (entries : List (String × List String)) (visited vf : List String),
      dfsInv g [] visited →
      entries.foldl (validateStep g) (.ok visited) = .ok vf →
      dfsInv g [] vf ∧ (∀ x ∈ visited, x ∈ vf) ∧ ∀ e ∈ entries, e.1 ∈ vf := by
  intro entries
  induction entries with
  | nil =>
      intro visited vf hI h
      obtain h2 := Except.ok.inj h
      subst h2
      exact ⟨hI, fun x hx => hx, fun e he => absurd he (List.not_mem_nil e)⟩
  | cons e es ih =>
      intro visited vf hI h
      rw [List.foldl_cons] at h
      cases hdfs : dfs g (dfsFuel g) e.1 [] visited with
      | error err =>
          rw [show validateStep g (.ok visited) e = .error err by
            simp only [validateStep, hdfs], validateFold_error] at h
          exact absurd h (by simp)
      | ok pr =>
          obtain ⟨b, v2⟩ := pr
          cases b with
          | true =>
              rw [show validateStep g (.ok visited) e =
                  .error (.circularDependency e.1) by
                simp only [validateStep, hdfs], validateFold_error] at h
              exact absurd h (by simp)
          | false =>
              rw [show validateStep g (.ok visited) e = .ok v2 by
                simp only [validateStep, hdfs]] at h
              obtain ⟨hI2, hm2, hmem2, _⟩ := dfs_sound g (dfsFuel g) e.1 [] visited v2 hI hdfs
              obtain ⟨hIf, hmf, hesf⟩ := ih v2 vf hI2 h
              refine ⟨hIf, fun x hx => hmf x (hm2 x hx), ?_⟩
              intro e' he'
              rcases List.mem_cons.mp he' with rfl | he''
              · exact hmf e'.1 hmem2
              · exact hesf e' he''

theorem hasCycle_mem_keys (g : DepMap) (a : String)
    (h : Relation.TransGen (depEdge g) a a) : a ∈ keys g := by
  obtain ⟨b, hedge, _⟩ := Relation.TransGen.head'_iff.mp h
  obtain ⟨ds, hlook, _⟩ := hedge
  exact lookupDeps_mem_keys g a ds hlook

/-- C5 (amended): for every fully-declared dependency map, validation
succeeds exactly when the map is acyclic; when the map has a cycle,
validation fails with a circular-dependency error naming the chain from
which the detecting depth-first traversal started — a chain of the map,
though possibly one outside the cycle (see the counterexample). -/
theorem validateChainDependencies_amended (g : DepMap) :
    (fullyDeclared g → ¬ hasCycle g → validateChainDependencies g = .ok ()) ∧
    (fullyDeclared g → hasCycle g →
      ∃ c, validateChainDependencies g = .error (.circularDependency c) ∧
        c ∈ keys g) := by
  constructor
  · intro hdecl hnc
    rw [validate_eq]
    obtain ⟨vf, hvf⟩ := validateFold_ok_of_acyclic g hdecl hnc g []
      (fun e he => List.mem_map_of_mem (fun x => x.1) he)
      (remCount_nil_lt_dfsFuel g)
    rw [hvf]
    rfl
  · intro hdecl hcyc
    rcases validateFold_shape g hdecl g []
        (fun e he => List.mem_map_of_mem (fun x => x.1) he)
        (remCount_nil_lt_dfsFuel g) with ⟨vf, hvf⟩ | ⟨c, hc1, hc2⟩
    · exfalso
      have hInv0 : dfsInv g [] [] := fun v hv => absurd hv (List.not_mem_nil v)
      obtain ⟨hIf, _, hkeys⟩ := validateFold_inv g g [] vf hInv0 hvf
      obtain ⟨a, hT⟩ := hcyc
      have hak : a ∈ keys g := hasCycle_mem_keys g a hT
      simp only [keys, List.mem_map] at hak
      obtain ⟨e, he, rfl⟩ := hak
      have hav : e.1 ∈ vf := hkeys e he
      exact (hIf e.1 hav (List.not_mem_nil e.1)).2 ⟨e.1, .refl, hT⟩
    · refine ⟨c, ?_, hc2⟩
      rw [validate_eq, hc1]
      rfl

theorem gAcyclic_edge (u v : String) (h : depEdge gAcyclic u v) :
    u = "a" ∧ v = "b" := by
  obtain ⟨ds, hds, hm⟩ := h
  by_cases hua : ("a" : String) = u
  · subst hua
    obtain rfl : ds = ["b"] := by
      have h2 : some ds = some ["b"] :=
        hds.symm.trans (show lookupDeps gAcyclic "a" = some ["b"] from rfl)
      exact (Option.some.inj h2).symm ▸ rfl
    simp only [List.mem_singleton] at hm
    exact ⟨rfl, hm⟩
  · by_cases hub : ("b" : String) = u
    · subst hub
      obtain rfl : ds = [] := by
        have h2 : some ds = some [] :=
          hds.symm.trans (show lookupDeps gAcyclic "b" = some [] from rfl)
        exact (Option.some.inj h2).symm ▸ rfl
      cases hm
    · exfalso
      have hnone : lookupDeps gAcyclic u = none := by
        simp [lookupDeps, gAcyclic, List.find?, hua, hub]
      rw [hnone] at hds
      exact Option.noConfusion hds

theorem gAcyclic_fullyDeclared : fullyDeclared gAcyclic := by
  intro a b h
  obtain ⟨rfl, rfl⟩ := gAcyclic_edge a b h
  exact rfl

theorem gAcyclic_noCycle : ¬ hasCycle gAcyclic := by
  rintro ⟨x, hT⟩
  obtain ⟨y, hxy, hyx⟩ := Relation.TransGen.head'_iff.mp hT
  obtain ⟨rfl, rfl⟩ := gAcyclic_edge x y hxy
  rcases Relation.ReflTransGen.cases_head hyx with heq | ⟨z, hbz, _⟩
  · exact absurd heq (by decide)
  · obtain ⟨h1, _⟩ := gAcyclic_edge _ _ hbz
    exact absurd h1 (by decide)

/-- Witness for C5 at a concrete input: the acyclic fully-declared
two-chain map validates successfully. -/
theorem validateChainDependencies_amended_witness :
    validateChainDependencies gAcyclic = .ok () :=
  (validateChainDependencies_amended gAcyclic).1
    gAcyclic_fullyDeclared gAcyclic_noCycle

end Yapl
